import Mathlib

/-!
# Verification of the subtitle-generation core

A shallow embedding of the subtitle-generation pipeline
(`subtitle_generator/`): transcript chunking, word-limit post-processing,
highlight-aware splitting, rule-based line layout, sequential timestamp
matching, retry orchestration, and timeline merging.

Python strings are modelled as `List Char` (`Str`), floats as `Rat`
(the code only compares, subtracts and propagates times; no rounding paths
are relevant to the claims checked), and Python `dict` records as
structures with the accessed fields.
-/

set_option maxHeartbeats 1000000

/-- Python `str` modelled as a list of characters. -/
abbrev Str := List Char

/-- `List Char` form of a Lean string literal. -/
def strL (s : String) : Str := s.toList

/-- A character matched by Python's regex class `\w` (ASCII inputs). -/
def isWordChar (c : Char) : Bool := c.isAlphanum || c = '_'

/-- A character matched by Python's regex class `\s`. -/
def isSpaceChar (c : Char) : Bool := c.isWhitespace

/-- Python `str.strip()`: drop leading and trailing whitespace. -/
def stripWs (s : Str) : Str :=
  ((s.dropWhile isSpaceChar).reverse.dropWhile isSpaceChar).reverse

/-- ASCII alphanumeric test for the token regex `[A-Za-z0-9]`. -/
def isAlnumAscii (c : Char) : Bool :=
  ('A' ≤ c && c ≤ 'Z') || ('a' ≤ c && c ≤ 'z') || ('0' ≤ c && c ≤ '9')

/-- Scanner state for the token regex `[A-Za-z0-9]+(?:'[A-Za-z0-9]+)?`:
outside a match, inside the first run, just past an apostrophe, or inside
the optional second run. Accumulators are kept reversed while scanning. -/
inductive FatState where
  | out
  | run1 (acc : Str)
  | apos (acc : Str)
  | run2 (tok1 : Str) (acc : Str)

/-- One-pass scanner for `re.findall(r"[A-Za-z0-9]+(?:'[A-Za-z0-9]+)?", s)`:
a maximal alphanumeric run, optionally extended by an apostrophe followed
by a nonempty alphanumeric run. A character that ends a match can never
start or continue another, so it is dropped as the scan resumes. -/
def fatGo : Str → FatState → List Str
  | [], st => match st with
    | .out => []
    | .run1 acc => [acc.reverse]
    | .apos acc => [acc.reverse]
    | .run2 t1 acc => [t1 ++ '\'' :: acc.reverse]
  | c :: rest, st => match st with
    | .out =>
      if isAlnumAscii c then fatGo rest (.run1 [c]) else fatGo rest .out
    | .run1 acc =>
      if isAlnumAscii c then fatGo rest (.run1 (c :: acc))
      else if c = '\'' then fatGo rest (.apos acc)
      else acc.reverse :: fatGo rest .out
    | .apos acc =>
      if isAlnumAscii c then fatGo rest (.run2 acc.reverse [c])
      else acc.reverse :: fatGo rest .out
    | .run2 t1 acc =>
      if isAlnumAscii c then fatGo rest (.run2 t1 (c :: acc))
      else (t1 ++ '\'' :: acc.reverse) :: fatGo rest .out

/-- Python `re.findall(r"[A-Za-z0-9]+(?:'[A-Za-z0-9]+)?", s)`. -/
def findallTokens (s : Str) : List Str := fatGo s .out

/-- The word loop of Python `str.split()` (no argument): split on
whitespace runs, discarding empty pieces; `cur` is the reversed pending
word. -/
def pySplitGo : Str → Str → List Str
  | [], cur => if cur.isEmpty then [] else [cur.reverse]
  | c :: rest, cur =>
    if isSpaceChar c then
      if cur.isEmpty then pySplitGo rest []
      else cur.reverse :: pySplitGo rest []
    else pySplitGo rest (c :: cur)

/-- Python `str.split()` (no argument). -/
def pySplit (s : Str) : List Str := pySplitGo s []

/-- Python `" ".join(words)`. -/
def joinSpace : List Str → Str
  | [] => []
  | [w] => w
  | w :: v :: ws => w ++ ' ' :: joinSpace (v :: ws)

/-! ## Chunker (`subtitle_generator/chunker.py`) -/

/-- `chunker.WordTimestamp`: one transcribed word with absolute times. -/
structure WordTimestamp where
  word : Str
  start : Rat
  «end» : Rat
deriving DecidableEq, Repr

/-- `chunker.TranscriptChunk`: a contiguous transcript segment. -/
structure TranscriptChunk where
  text : Str
  words : List WordTimestamp
  start : Rat
  «end» : Rat
  chunk_index : Nat
deriving DecidableEq, Repr

/-- `TranscriptChunker._create_chunk`: build a chunk from accumulated
words (`text` space-joined, `end` = last word's end). -/
def create_chunk (words : List WordTimestamp) (start : Rat) (index : Nat) :
    TranscriptChunk :=
  { text := joinSpace (words.map (·.word))
    words := words
    start := start
    «end» := (words.getLastD ⟨[], 0, 0⟩).«end»
    chunk_index := index }

/-- The word loop of `TranscriptChunker.chunk`: greedily accumulate words,
closing the current chunk when adding a word would reach `max_duration`. -/
def chunk_loop (maxD : Rat) :
    List WordTimestamp → List WordTimestamp → Rat → Nat → List TranscriptChunk
  | [], current, chunkStart, idx =>
    if current.isEmpty then [] else [create_chunk current chunkStart idx]
  | w :: ws, current, chunkStart, idx =>
    if current.isEmpty then
      -- first word of a chunk: `chunk_start = word.start`; the finalize
      -- guard `... and current_words` is false, so the word is appended
      chunk_loop maxD ws [w] w.start idx
    else if maxD ≤ w.«end» - chunkStart then
      create_chunk current chunkStart idx ::
        chunk_loop maxD ws [w] w.start (idx + 1)
    else
      chunk_loop maxD ws (current ++ [w]) chunkStart idx

/-- `TranscriptChunker.chunk` on an already-extracted word list. -/
def chunk (maxD : Rat) (words : List WordTimestamp) : List TranscriptChunk :=
  chunk_loop maxD words [] 0 0

/-! ### Chunker lemmas -/

/-- The words of the emitted chunks are the pending words followed by the
remaining input, in order. -/
theorem chunk_loop_words (maxD : Rat) :
    ∀ (ws current : List WordTimestamp) (chunkStart : Rat) (idx : Nat),
      ((chunk_loop maxD ws current chunkStart idx).flatMap (·.words)) =
        current ++ ws := by
  intro ws
  induction ws with
  | nil =>
    intro current chunkStart idx
    by_cases h : current.isEmpty
    · simp [chunk_loop, h, List.isEmpty_iff.mp h]
    · simp [chunk_loop, h, create_chunk]
  | cons w ws ih =>
    intro current chunkStart idx
    by_cases h : current.isEmpty
    · simp [chunk_loop, h, ih, List.isEmpty_iff.mp h]
    · by_cases h2 : maxD ≤ w.«end» - chunkStart
      · simp [chunk_loop, h, h2, ih, create_chunk]
      · simp [chunk_loop, h, h2, ih]

/-- Invariant carried by the pending chunk: it is empty, or a single word
whose start is the chunk start, or every sense of "fits" holds — its last
word was admitted under the strict duration check. -/
def PendingInv (maxD : Rat) (current : List WordTimestamp) (chunkStart : Rat) :
    Prop :=
  current = [] ∨
  (∃ w, current = [w] ∧ chunkStart = w.start) ∨
  (current ≠ [] ∧ (current.getLastD ⟨[], 0, 0⟩).«end» - chunkStart < maxD)

/-- Duration property of an emitted chunk. -/
def ChunkOk (maxD : Rat) (c : TranscriptChunk) : Prop :=
  c.«end» - c.start < maxD ∨
  (∃ w, c.words = [w] ∧ c.start = w.start ∧ c.«end» = w.«end» ∧
    maxD ≤ w.«end» - w.start)

theorem create_chunk_ok (maxD : Rat) (current : List WordTimestamp)
    (chunkStart : Rat) (idx : Nat) (hne : current ≠ [])
    (hinv : PendingInv maxD current chunkStart) :
    ChunkOk maxD (create_chunk current chunkStart idx) := by
  rcases hinv with h | ⟨w, hw, hs⟩ | ⟨_, hlt⟩
  · exact absurd h hne
  · by_cases hd : w.«end» - w.start < maxD
    · left
      simp [create_chunk, hw, hs, hd]
    · right
      exact ⟨w, by simp [create_chunk, hw], by simp [create_chunk, hs],
        by simp [create_chunk, hw], by simpa using le_of_not_lt hd⟩
  · left
    simpa [create_chunk] using hlt

theorem chunk_loop_ok (maxD : Rat) :
    ∀ (ws current : List WordTimestamp) (chunkStart : Rat) (idx : Nat),
      PendingInv maxD current chunkStart →
      ∀ c ∈ chunk_loop maxD ws current chunkStart idx, ChunkOk maxD c := by
  intro ws
  induction ws with
  | nil =>
    intro current chunkStart idx hinv c hc
    by_cases h : current.isEmpty
    · simp [chunk_loop, h] at hc
    · simp only [chunk_loop, h, if_false, Bool.false_eq_true,
        List.mem_singleton] at hc
      subst hc
      exact create_chunk_ok maxD current chunkStart idx
        (fun he => by simp [he] at h) hinv
  | cons w ws ih =>
    intro current chunkStart idx hinv c hc
    by_cases h : current.isEmpty
    · simp only [chunk_loop, h, if_true] at hc
      exact ih [w] w.start idx (Or.inr (Or.inl ⟨w, rfl, rfl⟩)) c hc
    · by_cases h2 : maxD ≤ w.«end» - chunkStart
      · simp only [chunk_loop, h, h2, if_true, if_false, Bool.false_eq_true,
          List.mem_cons] at hc
        rcases hc with hc | hc
        · subst hc
          exact create_chunk_ok maxD current chunkStart idx
            (fun he => by simp [he] at h) hinv
        · exact ih [w] w.start (idx + 1) (Or.inr (Or.inl ⟨w, rfl, rfl⟩)) c hc
      · simp only [chunk_loop, h, h2, if_false, Bool.false_eq_true] at hc
        refine ih (current ++ [w]) chunkStart idx ?_ c hc
        right; right
        refine ⟨by simp, ?_⟩
        simpa using lt_of_not_le h2

/-- **C2.** `TranscriptChunker.chunk`: the chunks' word lists concatenate,
in order, to exactly the input word sequence, and every chunk's duration
(`end - start`) is strictly below `max_duration` except possibly a chunk
made of a single word whose own duration is at least `max_duration`. -/
theorem chunker_chunk_covering_and_bound (maxD : Rat)
    (words : List WordTimestamp) :
    ((chunk maxD words).flatMap (·.words)) = words ∧
    ∀ c ∈ chunk maxD words,
      c.«end» - c.start < maxD ∨
      (∃ w, c.words = [w] ∧ c.start = w.start ∧ c.«end» = w.«end» ∧
        maxD ≤ w.«end» - w.start) := by
  constructor
  · simpa using chunk_loop_words maxD words [] 0 0
  · intro c hc
    exact chunk_loop_ok maxD words [] 0 0 (Or.inl rfl) c hc

/-- Concrete check of C2: three words of 30 s each with `max_duration` 55
yield chunks `[w0, w1]` (50 s) and `[w2]`, covering the input in order and
both within the bound. -/
theorem chunker_chunk_covering_and_bound_witness :
    ((chunk 55 [⟨strL "a", 0, 30⟩, ⟨strL "b", 30, 50⟩, ⟨strL "c", 50, 80⟩]
      ).flatMap (·.words)) =
      [⟨strL "a", 0, 30⟩, ⟨strL "b", 30, 50⟩, ⟨strL "c", 50, 80⟩] ∧
    ((chunk 55 [⟨strL "a", 0, 30⟩, ⟨strL "b", 30, 50⟩, ⟨strL "c", 50, 80⟩]
      ).map (·.words.length)) = [2, 1] := by
  refine ⟨(chunker_chunk_covering_and_bound 55 _).1, ?_⟩
  norm_num [chunk, chunk_loop, create_chunk]

/-! ## Word-limit post-processor (`utils/post_processor.py`,
`utils/hybrid_line_divider.py` — `HybridPostProcessor`) -/

/-- `models.GroupDivision`: verbatim text groups from step 1. -/
structure GroupDivision where
  groups : List Str
deriving DecidableEq, Repr

/-- `models.GroupWithHighlight`: a group plus its nominated highlight. -/
structure GroupWithHighlight where
  group_text : Str
  highlight_word : Option Str
deriving DecidableEq, Repr

/-- Successive slices `words[start:start+size]` taken with a running
start index, each space-joined (the chunk loop of `_split_group`). -/
def chunksOfSizes : List Nat → List Str → List Str
  | [], _ => []
  | n :: ns, ws => joinSpace (ws.take n) :: chunksOfSizes ns (ws.drop n)

namespace GroupPostProcessor

/-- `GroupPostProcessor._split_group`: ceiling-divide into `num_groups`
parts, the first `word_count % num_groups` parts one word larger. -/
def _split_group (maxW : Nat) (text : Str) (word_count : Nat) : List Str :=
  let words := pySplit text
  let num_groups := (word_count + maxW - 1) / maxW
  let base_size := word_count / num_groups
  let remainder := word_count % num_groups
  chunksOfSizes
    ((List.range num_groups).map
      (fun i => base_size + if i < remainder then 1 else 0))
    words

/-- `GroupPostProcessor.process`: keep groups within the ceiling, split
the oversized ones. -/
def process (maxW : Nat) (division : GroupDivision) : GroupDivision :=
  ⟨division.groups.flatMap fun group_text =>
    let word_count := (pySplit group_text).length
    if word_count ≤ maxW then [group_text]
    else _split_group maxW group_text word_count⟩

end GroupPostProcessor

/-- `re.sub(r'[^\w]', '', w.lower())` (HybridPostProcessor's cleaner). -/
def _hp_clean (w : Str) : Str := (w.map Char.toLower).filter isWordChar

/-- Python `max(l, key=len)` on a nonempty list: first longest element. -/
def maxByLenGo (m : Str) : List Str → Str
  | [] => m
  | x :: xs => if m.length < x.length then maxByLenGo x xs else maxByLenGo m xs

/-- Python `max(l, key=len)`; `[]` on an empty list (never hit by callers). -/
def maxByLen : List Str → Str
  | [] => []
  | x :: xs => maxByLenGo x xs

namespace HybridPostProcessor

/-- `HybridPostProcessor._split_group_with_highlight`: midpoint split,
original highlight to the half holding its first cleaned occurrence, the
other half falling back to its longest word when it has more than one. -/
def _split_group_with_highlight (group : GroupWithHighlight) :
    List GroupWithHighlight :=
  let words := pySplit group.group_text
  let clean_words := words.map _hp_clean
  let clean_highlight := match group.highlight_word with
    | some h => _hp_clean h
    | none => []
  let highlight_idx : Int :=
    if clean_highlight.isEmpty then -1
    else match clean_words.findIdx? (· == clean_highlight) with
      | some i => (i : Int)
      | none => -1
  let total_words := words.length
  let mid_point := total_words / 2
  let split_point : Int := (mid_point : Int)
  let first_half := words.take mid_point
  let second_half := words.drop mid_point
  let first_text := joinSpace first_half
  let second_text := joinSpace second_half
  let fs : Option Str × Option Str :=
    if 0 ≤ highlight_idx ∧ highlight_idx < split_point then
      (group.highlight_word,
        if 1 < second_half.length then some (maxByLen second_half) else none)
    else if split_point ≤ highlight_idx then
      ((if 1 < first_half.length then some (maxByLen first_half) else none),
        group.highlight_word)
    else
      ((if 1 < first_half.length then some (maxByLen first_half) else none),
        (if 1 < second_half.length then some (maxByLen second_half) else none))
  (if first_half.isEmpty then [] else [⟨first_text, fs.1⟩]) ++
    (if second_half.isEmpty then [] else [⟨second_text, fs.2⟩])

/-- `HybridPostProcessor.process`: keep groups within the ceiling, split
the oversized ones while distributing highlights. -/
def process (maxW : Nat) (groups : List GroupWithHighlight) :
    List GroupWithHighlight :=
  groups.flatMap fun group =>
    if (pySplit group.group_text).length ≤ maxW then [group]
    else _split_group_with_highlight group

end HybridPostProcessor

/-! ### Whitespace-token lemmas -/

/-- A word produced by `pySplit`: nonempty and whitespace-free. -/
def GoodToken (w : Str) : Prop := w ≠ [] ∧ ∀ c ∈ w, isSpaceChar c = false

theorem pySplitGo_run {w : Str} (hw : ∀ c ∈ w, isSpaceChar c = false) :
    ∀ (l cur : Str), pySplitGo (w ++ l) cur = pySplitGo l (w.reverse ++ cur) := by
  induction w with
  | nil => intro l cur; simp
  | cons c w' ih =>
    intro l cur
    have hc : isSpaceChar c = false := hw c (by simp)
    rw [List.cons_append, pySplitGo]
    simp only [hc, Bool.false_eq_true, if_false]
    rw [ih (fun x hx => hw x (by simp [hx])) l (c :: cur)]
    simp

theorem pySplitGo_tokens_good :
    ∀ (s cur : Str), (∀ c ∈ cur, isSpaceChar c = false) →
      ∀ t ∈ pySplitGo s cur, GoodToken t := by
  intro s
  induction s with
  | nil =>
    intro cur hcur t ht
    by_cases h : cur.isEmpty
    · simp [pySplitGo, h] at ht
    · simp only [pySplitGo, h, Bool.false_eq_true, if_false,
        List.mem_singleton] at ht
      subst ht
      have hne : cur ≠ [] := fun hc => by simp [hc] at h
      exact ⟨by simpa using hne, fun c hc => hcur c (by simpa using hc)⟩
  | cons c rest ih =>
    intro cur hcur t ht
    by_cases hc : isSpaceChar c
    · by_cases h : cur.isEmpty
      · rw [pySplitGo] at ht
        simp only [hc, if_true, h] at ht
        exact ih [] (by simp) t ht
      · rw [pySplitGo] at ht
        simp only [hc, if_true, h, Bool.false_eq_true, if_false,
          List.mem_cons] at ht
        rcases ht with ht | ht
        · subst ht
          have hne : cur ≠ [] := fun hk => by simp [hk] at h
          exact ⟨by simpa using hne, fun x hx => hcur x (by simpa using hx)⟩
        · exact ih [] (by simp) t ht
    · rw [pySplitGo] at ht
      simp only [hc, Bool.false_eq_true, if_false] at ht
      refine ih (c :: cur) ?_ t ht
      intro x hx
      rcases List.mem_cons.mp hx with hx | hx
      · subst hx; simpa using hc
      · exact hcur x hx

theorem pySplit_tokens_good : ∀ s : Str, ∀ t ∈ pySplit s, GoodToken t := by
  intro s
  exact pySplitGo_tokens_good s [] (by simp)

theorem pySplit_good_single {w : Str} (hw : GoodToken w) : pySplit w = [w] := by
  obtain ⟨hne, hws⟩ := hw
  have := pySplitGo_run hws [] []
  rw [List.append_nil] at this
  rw [pySplit, this, pySplitGo]
  have : w.reverse ++ [] = w.reverse := List.append_nil _
  rw [this]
  have hre : (w.reverse).isEmpty = false := by
    cases hrev : w.reverse with
    | nil => exact absurd (by simpa using hrev) hne
    | cons a as => simp
  simp [hre]

theorem pySplit_append_space {w : Str} (hw : GoodToken w) (r : Str) :
    pySplit (w ++ ' ' :: r) = w :: pySplit r := by
  obtain ⟨hne, hws⟩ := hw
  rw [pySplit, pySplitGo_run hws (' ' :: r) []]
  rw [List.append_nil, pySplitGo]
  have hsp : isSpaceChar ' ' = true := by decide
  have hre : (w.reverse).isEmpty = false := by
    cases hrev : w.reverse with
    | nil => exact absurd (by simpa using hrev) hne
    | cons a as => simp
  simp [hsp, hre, pySplit]

theorem pySplit_joinSpace :
    ∀ {ws : List Str}, (∀ w ∈ ws, GoodToken w) → pySplit (joinSpace ws) = ws := by
  intro ws
  induction ws with
  | nil => intro _; simp [joinSpace, pySplit, pySplitGo]
  | cons w rest ih =>
    intro h
    match rest with
    | [] =>
      simpa [joinSpace] using pySplit_good_single (h w (by simp))
    | v :: rest' =>
      rw [joinSpace, pySplit_append_space (h w (by simp))]
      rw [ih (fun x hx => h x (by simp [hx]))]

theorem joinSpace_append :
    ∀ {l1 : List Str}, l1 ≠ [] → ∀ {l2 : List Str}, l2 ≠ [] →
      joinSpace (l1 ++ l2) = joinSpace l1 ++ ' ' :: joinSpace l2 := by
  intro l1
  induction l1 with
  | nil => intro h; exact absurd rfl h
  | cons a as ih =>
    intro _ l2 h2
    match as with
    | [] =>
      match l2, h2 with
      | b :: bs, _ => simp [joinSpace]
    | c :: as' =>
      have : joinSpace (c :: as' ++ l2) = joinSpace (c :: as') ++ ' ' :: joinSpace l2 := ih (by simp) h2
      simp only [List.cons_append] at this ⊢
      rw [joinSpace, this, joinSpace]
      simp

/-! ### Split-size arithmetic -/

theorem ceil_div_mul_ge (m wc : Nat) (hm : 0 < m) :
    wc ≤ ((wc + m - 1) / m) * m := by
  rcases Nat.eq_zero_or_pos wc with h | h
  · simp [h]
  · have hdm := Nat.div_add_mod (wc + m - 1) m
    have hlt : (wc + m - 1) % m < m := Nat.mod_lt _ hm
    rw [Nat.mul_comm]
    omega

theorem ceil_div_pos (m wc : Nat) (hm : 0 < m) (hwc : 0 < wc) :
    0 < (wc + m - 1) / m :=
  Nat.div_pos (by omega) hm

theorem ceil_div_le_self (m wc : Nat) (hm : 0 < m) (hwc : 0 < wc) :
    (wc + m - 1) / m ≤ wc := by
  have h1 : wc ≤ wc * m := Nat.le_mul_of_pos_right wc hm
  have h2 : (wc + m - 1) / m < wc + 1 := by
    rw [Nat.div_lt_iff_lt_mul hm, Nat.add_one_mul]
    omega
  omega

theorem split_sizes_le (m wc i : Nat) (hm : 0 < m) (hover : m < wc) :
    wc / ((wc + m - 1) / m) +
      (if i < wc % ((wc + m - 1) / m) then 1 else 0) ≤ m := by
  have hwc : 0 < wc := by omega
  have hk : 0 < (wc + m - 1) / m := ceil_div_pos m wc hm hwc
  have hceil : wc ≤ ((wc + m - 1) / m) * m := ceil_div_mul_ge m wc hm
  set k := (wc + m - 1) / m with hkdef
  have hbase : wc / k ≤ m := by
    calc wc / k ≤ k * m / k := Nat.div_le_div_right (by rw [Nat.mul_comm] at hceil ⊢; omega)
    _ = m := Nat.mul_div_cancel_left m hk
  by_cases hi : i < wc % k
  · simp only [hi, if_true]
    by_cases hb : wc / k + 1 ≤ m
    · exact hb
    · exfalso
      have hbm : m ≤ wc / k := by omega
      have h1 : k * m ≤ k * (wc / k) := Nat.mul_le_mul_left k hbm
      have h2 : k * (wc / k) + wc % k = wc := Nat.div_add_mod wc k
      have h3 : 0 < wc % k := by omega
      omega
  · simpa [hi] using hbase

theorem sum_sizes (base rem : Nat) :
    ∀ k, ((List.range k).map (fun i => base + if i < rem then 1 else 0)).sum =
      k * base + min rem k := by
  intro k
  induction k with
  | zero => simp
  | succ k ih =>
    rw [List.range_succ, List.map_append, List.sum_append, ih]
    by_cases h : k < rem
    · simp only [List.map_cons, List.map_nil, h, if_true]
      simp only [List.sum_cons, List.sum_nil]
      have h1 : min rem k = k := by omega
      have h2 : min rem (k + 1) = k + 1 := by omega
      rw [h1, h2, Nat.succ_mul]
      omega
    · simp only [List.map_cons, List.map_nil, h, if_false]
      simp only [List.sum_cons, List.sum_nil]
      have h1 : min rem k = min rem (k + 1) := by omega
      rw [← h1, Nat.succ_mul]
      omega

/-! ### `chunksOfSizes` lemmas -/

theorem chunksOfSizes_wordcount :
    ∀ (sizes : List Nat) (ws : List Str), (∀ w ∈ ws, GoodToken w) →
      ∀ t ∈ chunksOfSizes sizes ws, ∃ n ∈ sizes, (pySplit t).length ≤ n := by
  intro sizes
  induction sizes with
  | nil => simp [chunksOfSizes]
  | cons n ns ih =>
    intro ws hgood t ht
    simp only [chunksOfSizes, List.mem_cons] at ht
    rcases ht with ht | ht
    · subst ht
      refine ⟨n, by simp, ?_⟩
      rw [pySplit_joinSpace (fun w hw => hgood w (List.mem_of_mem_take hw))]
      simp only [List.length_take]
      omega
    · obtain ⟨n', hn', hle⟩ :=
        ih (ws.drop n) (fun w hw => hgood w (List.mem_of_mem_drop hw)) t ht
      exact ⟨n', by simp [hn'], hle⟩

theorem joinSpace_chunksOfSizes :
    ∀ (sizes : List Nat) (ws : List Str), sizes.sum = ws.length →
      (∀ n ∈ sizes, 1 ≤ n) →
      joinSpace (chunksOfSizes sizes ws) = joinSpace ws := by
  intro sizes
  induction sizes with
  | nil =>
    intro ws hsum _
    simp only [List.sum_nil] at hsum
    rw [List.eq_nil_of_length_eq_zero hsum.symm]
    simp [chunksOfSizes]
  | cons n ns ih =>
    intro ws hsum hpos
    match ns with
    | [] =>
      simp only [List.sum_cons, List.sum_nil, Nat.add_zero] at hsum
      simp only [chunksOfSizes, joinSpace]
      rw [List.take_of_length_le (by omega)]
    | m :: ns' =>
      have hn1 : 1 ≤ n := hpos n (by simp)
      have hm1 : 1 ≤ m := hpos m (by simp)
      have hsum' : (m :: ns').sum = (ws.drop n).length := by
        simp only [List.sum_cons] at hsum ⊢
        simp only [List.length_drop]
        omega
      have hrec := ih (ws.drop n) hsum' (fun x hx => hpos x (by simp [hx]))
      have htne : ws.take n ≠ [] := by
        have : (ws.take n).length = min n ws.length := List.length_take n ws
        intro hcon
        rw [hcon] at this
        simp only [List.length_nil] at this
        simp only [List.sum_cons] at hsum
        omega
      have hdne : ws.drop n ≠ [] := by
        have : (ws.drop n).length = ws.length - n := List.length_drop n ws
        intro hcon
        rw [hcon] at this
        simp only [List.length_nil] at this
        simp only [List.sum_cons] at hsum
        omega
      calc joinSpace (chunksOfSizes (n :: m :: ns') ws)
          = joinSpace (ws.take n) ++ ' ' ::
              joinSpace (chunksOfSizes (m :: ns') (ws.drop n)) := by
            simp only [chunksOfSizes, joinSpace]
        _ = joinSpace (ws.take n) ++ ' ' :: joinSpace (ws.drop n) := by
            rw [hrec]
        _ = joinSpace (ws.take n ++ ws.drop n) :=
            (joinSpace_append htne hdne).symm
        _ = joinSpace ws := by rw [List.take_append_drop]

/-! ### Hybrid split characterization -/

theorem isEmpty_false_of_ne_nil {α : Type} {l : List α} (h : l ≠ []) :
    l.isEmpty = false := by
  cases l with
  | nil => exact absurd rfl h
  | cons a as => simp

/-- `_split_group_with_highlight` always returns exactly the two halves of
the word list split at `len / 2` (for at least two words), in order, each
space-joined; only the highlight assignment varies. -/
theorem split_hl_texts (g : GroupWithHighlight)
    (hn : 2 ≤ (pySplit g.group_text).length) :
    ∃ f s, HybridPostProcessor._split_group_with_highlight g =
      [⟨joinSpace ((pySplit g.group_text).take
          ((pySplit g.group_text).length / 2)), f⟩,
       ⟨joinSpace ((pySplit g.group_text).drop
          ((pySplit g.group_text).length / 2)), s⟩] := by
  have htne : (pySplit g.group_text).take
      ((pySplit g.group_text).length / 2) ≠ [] := by
    intro hcon
    have := congrArg List.length hcon
    simp only [List.length_take, List.length_nil] at this
    omega
  have hdne : (pySplit g.group_text).drop
      ((pySplit g.group_text).length / 2) ≠ [] := by
    intro hcon
    have := congrArg List.length hcon
    simp only [List.length_drop, List.length_nil] at this
    omega
  rw [HybridPostProcessor._split_group_with_highlight]
  simp only [isEmpty_false_of_ne_nil htne, isEmpty_false_of_ne_nil hdne,
    Bool.false_eq_true, if_false]
  exact ⟨_, _, rfl⟩

/-- **C3 (amended).** Word-limit post-processing: every group produced by
`GroupPostProcessor.process` has at most `max_words_per_group` words; every
group produced by `HybridPostProcessor.process` has at most the ceiling
*provided* no input group exceeds twice the ceiling (the highlight path
performs a single midpoint split, so a group beyond 2× the ceiling yields
halves that still exceed it). -/
theorem post_processing_word_limit (maxW : Nat) (division : GroupDivision)
    (hgroups : List GroupWithHighlight) (hm : 1 ≤ maxW) :
    (∀ t ∈ (GroupPostProcessor.process maxW division).groups,
      (pySplit t).length ≤ maxW) ∧
    ((∀ g ∈ hgroups, (pySplit g.group_text).length ≤ 2 * maxW) →
      ∀ g ∈ HybridPostProcessor.process maxW hgroups,
        (pySplit g.group_text).length ≤ maxW) := by
  constructor
  · intro t ht
    simp only [GroupPostProcessor.process, List.mem_flatMap] at ht
    obtain ⟨gt, hgt, hmem⟩ := ht
    by_cases hwc : (pySplit gt).length ≤ maxW
    · simp only [hwc, if_true, List.mem_singleton] at hmem
      subst hmem
      exact hwc
    · simp only [hwc, if_false] at hmem
      rw [GroupPostProcessor._split_group] at hmem
      obtain ⟨n, hn, hlen⟩ := chunksOfSizes_wordcount _ _
        (pySplit_tokens_good gt) t hmem
      simp only [List.mem_map, List.mem_range] at hn
      obtain ⟨i, _, hni⟩ := hn
      subst hni
      exact le_trans hlen
        (split_sizes_le maxW (pySplit gt).length i (by omega) (by omega))
  · intro hbound g hg
    simp only [HybridPostProcessor.process, List.mem_flatMap] at hg
    obtain ⟨g0, hg0, hmem⟩ := hg
    by_cases hwc : (pySplit g0.group_text).length ≤ maxW
    · simp only [hwc, if_true, List.mem_singleton] at hmem
      subst hmem
      exact hwc
    · simp only [hwc, if_false] at hmem
      have h2 : 2 ≤ (pySplit g0.group_text).length := by omega
      obtain ⟨f, s, heq⟩ := split_hl_texts g0 h2
      rw [heq] at hmem
      have hb := hbound g0 hg0
      simp only [List.mem_cons, List.mem_singleton, List.not_mem_nil,
        or_false] at hmem
      rcases hmem with hmem | hmem
      · subst hmem
        simp only
        rw [pySplit_joinSpace
          (fun w hw => pySplit_tokens_good _ w (List.mem_of_mem_take hw))]
        simp only [List.length_take]
        omega
      · subst hmem
        simp only
        rw [pySplit_joinSpace
          (fun w hw => pySplit_tokens_good _ w (List.mem_of_mem_drop hw))]
        simp only [List.length_drop]
        omega

/-- Concrete check of C3 (amended): ceiling 3, a kept 2-word group plus an
oversized 5-word group; the even split yields 3+2 and all outputs are
within the ceiling, and on the hybrid side a 5-word group (≤ 2×3) splits
into halves of 2 and 3 words. -/
theorem post_processing_word_limit_witness :
    (∀ t ∈ (GroupPostProcessor.process 3 ⟨[strL "a b", strL "c d e f g"]⟩).groups,
      (pySplit t).length ≤ 3) ∧
    (∀ g ∈ HybridPostProcessor.process 3 [⟨strL "c d e f g", some (strL "d")⟩],
      (pySplit g.group_text).length ≤ 3) := by
  have h := post_processing_word_limit 3 ⟨[strL "a b", strL "c d e f g"]⟩
    [⟨strL "c d e f g", some (strL "d")⟩] (by decide)
  exact ⟨h.1, h.2 (by decide)⟩

/-- **C3 counterexample.** The claim extends the ceiling bound to oversized
groups beyond twice the ceiling "since only one binary split is performed":
with ceiling 8, an 18-word group on the highlight path splits into two
9-word halves, so the bound fails. -/
theorem post_processing_word_limit_counterexample :
    ¬ ∀ g ∈ HybridPostProcessor.process 8
        [⟨strL "a a a a a a a a a a a a a a a a a a", none⟩],
      (pySplit g.group_text).length ≤ 8 := by
  decide

/-- **C4 (amended).** Splitting an oversized group is order- and
text-preserving up to whitespace normalization: when the original
`group_text` is in canonical single-space form (as `str.split` tokens
rejoined), space-joining the resulting groups' texts, in output order,
reproduces it exactly — for both the k-way even split and the highlight
midpoint split. (For irregular internal whitespace the code normalizes to
single spaces, so exact reproduction fails; see the counterexample.) -/
theorem split_text_preserving (maxW : Nat) (text : Str) (hl : Option Str)
    (hm : 1 ≤ maxW) (hcanon : text = joinSpace (pySplit text))
    (hover : maxW < (pySplit text).length) :
    joinSpace (GroupPostProcessor._split_group maxW text
      (pySplit text).length) = text ∧
    joinSpace ((HybridPostProcessor._split_group_with_highlight
      ⟨text, hl⟩).map (·.group_text)) = text := by
  have hwc1 : 1 ≤ (pySplit text).length := by omega
  constructor
  · rw [GroupPostProcessor._split_group]
    set wc := (pySplit text).length with hwc
    set k := (wc + maxW - 1) / maxW with hk
    have hkpos : 0 < k := ceil_div_pos maxW wc (by omega) (by omega)
    have hkle : k ≤ wc := ceil_div_le_self maxW wc (by omega) (by omega)
    have hsum : ((List.range k).map
        (fun i => wc / k + if i < wc % k then 1 else 0)).sum = wc := by
      rw [sum_sizes]
      have hmod : wc % k < k := Nat.mod_lt _ hkpos
      have hdm := Nat.div_add_mod wc k
      have hmin : min (wc % k) k = wc % k := by omega
      rw [hmin]
      omega
    have hpos : ∀ n ∈ (List.range k).map
        (fun i => wc / k + if i < wc % k then 1 else 0), 1 ≤ n := by
      intro n hn
      simp only [List.mem_map, List.mem_range] at hn
      obtain ⟨i, _, hni⟩ := hn
      have hbase : 1 ≤ wc / k := Nat.one_le_div_iff hkpos |>.mpr hkle
      omega
    rw [joinSpace_chunksOfSizes _ _ hsum hpos]
    exact hcanon.symm
  · have h2 : 2 ≤ (pySplit text).length := by omega
    obtain ⟨f, s, heq⟩ := split_hl_texts ⟨text, hl⟩ h2
    simp only at heq
    rw [heq]
    simp only [List.map_cons, List.map_nil]
    have htne : (pySplit text).take ((pySplit text).length / 2) ≠ [] := by
      intro hcon
      have := congrArg List.length hcon
      simp only [List.length_take, List.length_nil] at this
      omega
    have hdne : (pySplit text).drop ((pySplit text).length / 2) ≠ [] := by
      intro hcon
      have := congrArg List.length hcon
      simp only [List.length_drop, List.length_nil] at this
      omega
    calc joinSpace [joinSpace ((pySplit text).take ((pySplit text).length / 2)),
          joinSpace ((pySplit text).drop ((pySplit text).length / 2))]
        = joinSpace ((pySplit text).take ((pySplit text).length / 2)) ++
            ' ' :: joinSpace ((pySplit text).drop ((pySplit text).length / 2)) := by
          simp [joinSpace]
      _ = joinSpace ((pySplit text).take ((pySplit text).length / 2) ++
            (pySplit text).drop ((pySplit text).length / 2)) :=
          (joinSpace_append htne hdne).symm
      _ = joinSpace (pySplit text) := by rw [List.take_append_drop]
      _ = text := hcanon.symm

/-- Concrete check of C4 (amended): splitting the canonical 5-word text
"c d e f g" (ceiling 3, oversized) reproduces it exactly on both paths. -/
theorem split_text_preserving_witness :
    joinSpace (GroupPostProcessor._split_group 3 (strL "c d e f g")
      (pySplit (strL "c d e f g")).length) = strL "c d e f g" ∧
    joinSpace ((HybridPostProcessor._split_group_with_highlight
      ⟨strL "c d e f g", some (strL "d")⟩).map (·.group_text)) =
      strL "c d e f g" := by
  have h := split_text_preserving 3 (strL "c d e f g") (some (strL "d"))
    (by decide) (by decide) (by decide)
  exact h

/-- **C4 counterexample.** For an oversized group whose text carries a
double space ("a  b", ceiling 1), the split rejoins the `str.split` tokens
with single spaces, so space-joining the outputs gives "a b", not the
original text: exact reproduction fails as stated. -/
theorem split_text_preserving_counterexample :
    joinSpace (GroupPostProcessor._split_group 1 (strL "a  b")
      (pySplit (strL "a  b")).length) ≠ strL "a  b" := by
  decide

/-! ### `max(…, key=len)` -/

theorem maxByLenGo_spec :
    ∀ (xs : List Str) (m : Str),
      (∀ w ∈ xs, w.length ≤ (maxByLenGo m xs).length) ∧
      m.length ≤ (maxByLenGo m xs).length ∧
      (maxByLenGo m xs = m ∨
        ∃ pre post, xs = pre ++ maxByLenGo m xs :: post ∧
          (∀ w ∈ pre, w.length < (maxByLenGo m xs).length) ∧
          m.length < (maxByLenGo m xs).length) := by
  intro xs
  induction xs with
  | nil => intro m; simp [maxByLenGo]
  | cons x xs ih =>
    intro m
    by_cases hx : m.length < x.length
    · have hgo : maxByLenGo m (x :: xs) = maxByLenGo x xs := by
        simp [maxByLenGo, hx]
      obtain ⟨ih1, ih2, ih3⟩ := ih x
      rw [hgo]
      refine ⟨?_, by omega, ?_⟩
      · intro w hw
        rcases List.mem_cons.mp hw with h | h
        · subst h; exact ih2
        · exact ih1 w h
      · right
        rcases ih3 with h | ⟨pre, post, heq, hpre, hlt⟩
        · exact ⟨[], xs, by rw [h]; simp, by simp, by omega⟩
        · refine ⟨x :: pre, post, by rw [List.cons_append, ← heq], ?_, by omega⟩
          intro w hw
          rcases List.mem_cons.mp hw with h | h
          · subst h; omega
          · exact hpre w h
    · have hgo : maxByLenGo m (x :: xs) = maxByLenGo m xs := by
        simp [maxByLenGo, hx]
      obtain ⟨ih1, ih2, ih3⟩ := ih m
      rw [hgo]
      refine ⟨?_, ih2, ?_⟩
      · intro w hw
        rcases List.mem_cons.mp hw with h | h
        · subst h; omega
        · exact ih1 w h
      · rcases ih3 with h | ⟨pre, post, heq, hpre, hlt⟩
        · exact Or.inl h
        · right
          refine ⟨x :: pre, post, by rw [List.cons_append, ← heq], ?_, hlt⟩
          intro w hw
          rcases List.mem_cons.mp hw with h | h
          · subst h; omega
          · exact hpre w h

/-- The Python `max(l, key=len)` result: a longest member of `l`, with
ties broken by first occurrence. -/
theorem maxByLen_spec (l : List Str) (hne : l ≠ []) :
    maxByLen l ∈ l ∧
    (∀ w ∈ l, w.length ≤ (maxByLen l).length) ∧
    ∃ pre post, l = pre ++ maxByLen l :: post ∧
      ∀ w ∈ pre, w.length < (maxByLen l).length := by
  match l, hne with
  | x :: xs, _ =>
    obtain ⟨h1, h2, h3⟩ := maxByLenGo_spec xs x
    have hml : maxByLen (x :: xs) = maxByLenGo x xs := rfl
    rw [hml]
    refine ⟨?_, ?_, ?_⟩
    · rcases h3 with h | ⟨pre, post, heq, _, _⟩
      · rw [h]; simp
      · have hm : maxByLenGo x xs ∈ pre ++ maxByLenGo x xs :: post := by simp
        rw [← heq] at hm
        exact List.mem_cons_of_mem x hm
    · intro w hw
      rcases List.mem_cons.mp hw with h | h
      · subst h; exact h2
      · exact h1 w h
    · rcases h3 with h | ⟨pre, post, heq, hpre, hlt⟩
      · exact ⟨[], xs, by rw [h]; simp, by simp⟩
      · refine ⟨x :: pre, post, by rw [List.cons_append, ← heq], ?_⟩
        intro w hw
        rcases List.mem_cons.mp hw with h | h
        · subst h; omega
        · exact hpre w h

/-- **C5 (amended).** For an oversized group with a highlight word found
among the cleaned tokens, `_split_group_with_highlight` splits at the
midpoint word index `n / 2`, assigns the original highlight to the half
holding the highlight's first cleaned occurrence, and gives the other half
a fallback highlight equal to its longest word (ties broken by first
occurrence) **only when that half has more than one word** — a one-word
other half receives no highlight (`None`), so not every resulting group is
guaranteed a non-null highlight. -/
theorem hybrid_highlight_split_characterization
    (g : GroupWithHighlight) (h : Str) (i : Nat)
    (hh : g.highlight_word = some h)
    (hchne : _hp_clean h ≠ [])
    (hidx : ((pySplit g.group_text).map _hp_clean).findIdx?
      (· == _hp_clean h) = some i)
    (hn : 2 ≤ (pySplit g.group_text).length) :
    (HybridPostProcessor._split_group_with_highlight g =
      if i < (pySplit g.group_text).length / 2 then
        [⟨joinSpace ((pySplit g.group_text).take
            ((pySplit g.group_text).length / 2)), some h⟩,
         ⟨joinSpace ((pySplit g.group_text).drop
            ((pySplit g.group_text).length / 2)),
          if 1 < ((pySplit g.group_text).drop
              ((pySplit g.group_text).length / 2)).length then
            some (maxByLen ((pySplit g.group_text).drop
              ((pySplit g.group_text).length / 2)))
          else none⟩]
      else
        [⟨joinSpace ((pySplit g.group_text).take
            ((pySplit g.group_text).length / 2)),
          if 1 < ((pySplit g.group_text).take
              ((pySplit g.group_text).length / 2)).length then
            some (maxByLen ((pySplit g.group_text).take
              ((pySplit g.group_text).length / 2)))
          else none⟩,
         ⟨joinSpace ((pySplit g.group_text).drop
            ((pySplit g.group_text).length / 2)), some h⟩]) ∧
    (∀ half : List Str,
      (half = (pySplit g.group_text).take ((pySplit g.group_text).length / 2) ∨
       half = (pySplit g.group_text).drop ((pySplit g.group_text).length / 2)) →
      half ≠ [] →
      maxByLen half ∈ half ∧
      (∀ w ∈ half, w.length ≤ (maxByLen half).length) ∧
      ∃ pre post, half = pre ++ maxByLen half :: post ∧
        ∀ w ∈ pre, w.length < (maxByLen half).length) := by
  constructor
  · have htne : (pySplit g.group_text).take
        ((pySplit g.group_text).length / 2) ≠ [] := by
      intro hcon
      have := congrArg List.length hcon
      simp only [List.length_take, List.length_nil] at this
      omega
    have hdne : (pySplit g.group_text).drop
        ((pySplit g.group_text).length / 2) ≠ [] := by
      intro hcon
      have := congrArg List.length hcon
      simp only [List.length_drop, List.length_nil] at this
      omega
    rw [HybridPostProcessor._split_group_with_highlight]
    simp only [hh, isEmpty_false_of_ne_nil hchne, Bool.false_eq_true,
      if_false, hidx, isEmpty_false_of_ne_nil htne,
      isEmpty_false_of_ne_nil hdne, Int.natCast_nonneg, true_and,
      Nat.cast_lt, Nat.cast_le]
    by_cases him : i < (pySplit g.group_text).length / 2
    · simp only [him, if_true]
      simp [Nat.not_le.mpr him]
    · simp only [him, if_false, Nat.not_lt.mp him, if_true]
      simp [him]
  · intro half hhalf hne
    exact maxByLen_spec half hne

/-- **C5 counterexample.** Oversized group "a b cc" (ceiling 2) with
highlight "cc": the highlight lies in the second half, and the first half
is the single word "a", so it receives no fallback highlight — the output
`[("a", None), ("b cc", "cc")]` contains a group with a null highlight,
contradicting the claimed guarantee. -/
theorem hybrid_highlight_split_counterexample :
    HybridPostProcessor._split_group_with_highlight
        ⟨strL "a b cc", some (strL "cc")⟩ =
      [⟨strL "a", none⟩, ⟨strL "b cc", some (strL "cc")⟩] ∧
    ¬ ∀ g' ∈ HybridPostProcessor._split_group_with_highlight
        ⟨strL "a b cc", some (strL "cc")⟩, g'.highlight_word ≠ none := by
  constructor
  · decide
  · decide

/-- Concrete check of C5 (amended): "aa b c d" with highlight "d" (index 3,
second half) splits into ("aa b", fallback "aa" — longest-first of a
two-word half) and ("c d", original "d"). -/
theorem hybrid_highlight_split_characterization_witness :
    HybridPostProcessor._split_group_with_highlight
        ⟨strL "aa b c d", some (strL "d")⟩ =
      [⟨strL "aa b", some (strL "aa")⟩, ⟨strL "c d", some (strL "d")⟩] := by
  have hc := hybrid_highlight_split_characterization
    ⟨strL "aa b c d", some (strL "d")⟩ (strL "d") 3 rfl
    (by decide) (by decide) (by decide)
  rw [hc.1]
  decide

/-! ## Line layout engine (`utils/hybrid_line_divider.py` —
`HybridLineDivider`) and font config (`models.FontConfig`) -/

/-- `models.SubtitleLine` (the fields the divider builds). -/
structure SubtitleLine where
  text : Str
  font_type : Str
deriving DecidableEq, Repr

/-- `models.SubtitleGroup` (the fields the divider builds). -/
structure SubtitleGroup where
  group_text : Str
  lines : List SubtitleLine
deriving DecidableEq, Repr

/-- `models.FontConfig`: three booleans defining the style's fonts. -/
structure FontConfig where
  bold : Bool := false
  italic : Bool := false
  normal : Bool := true
deriving DecidableEq, Repr

namespace FontConfig

/-- `FontConfig.get_highlight_font`: bold wins, then italic, else normal. -/
def get_highlight_font (fc : FontConfig) : Str :=
  if fc.bold then strL "bold"
  else if fc.italic then strL "italic"
  else strL "normal"

/-- `FontConfig.get_supporting_fonts`: `normal` when enabled, plus
`italic` in the bold-and-italic (Combo) style; `[normal]` fallback. -/
def get_supporting_fonts (fc : FontConfig) : List Str :=
  let fonts := (if fc.normal then [strL "normal"] else []) ++
    (if fc.bold && fc.italic then [strL "italic"] else [])
  if fonts.isEmpty then [strL "normal"] else fonts

/-- `FontConfig.should_use_highlight`: highlight separation only when
bold is set. -/
def should_use_highlight (fc : FontConfig) : Bool := fc.bold

end FontConfig

/-- `HybridLineDivider._clean_word`:
`re.sub(r'[^\w\s]', '', word.lower()).strip()`. -/
def _clean_word (w : Str) : Str :=
  stripWs ((w.map Char.toLower).filter (fun c => isWordChar c || isSpaceChar c))

/-- Does `hay` start with `needle`? -/
def leadMatch : Str → Str → Bool
  | [], _ => true
  | _ :: _, [] => false
  | a :: as, b :: bs => a == b && leadMatch as bs

/-- Python substring test `needle in hay`. -/
def containsSub (needle : Str) : Str → Bool
  | [] => needle.isEmpty
  | c :: rest => leadMatch needle (c :: rest) || containsSub needle rest

/-- The word loop of `HybridLineDivider._chunk_words`: close the pending
chunk once it holds `max_size` words, then start a new one. -/
def _chunk_words_go (maxSize : Nat) : List Str → List Str → List (List Str)
  | [], cur => if cur.isEmpty then [] else [cur]
  | w :: ws, cur =>
    if maxSize ≤ cur.length then cur :: _chunk_words_go maxSize ws [w]
    else _chunk_words_go maxSize ws (cur ++ [w])

/-- `HybridLineDivider._chunk_words`. -/
def _chunk_words (words : List Str) (maxSize : Nat) : List (List Str) :=
  if words.isEmpty then [] else _chunk_words_go maxSize words []

namespace HybridLineDivider

/-- `HybridLineDivider._divide_without_highlight`: chunk all tokens and
round-robin the supporting fonts. No line-count cap is applied here. -/
def _divide_without_highlight (maxWords : Nat) (fc : FontConfig)
    (text : Str) : SubtitleGroup :=
  let words := pySplit text
  let chunks := _chunk_words words maxWords
  let supporting_fonts := fc.get_supporting_fonts
  let lines := chunks.enum.map fun p =>
    SubtitleLine.mk (joinSpace p.2)
      (supporting_fonts.getD (p.1 % supporting_fonts.length) [])
  ⟨text, lines⟩

/-- Merge the last two lines of `before` (text joined by one space, font
of the earlier line), as `before[-2] = merged; before.pop(-1)`. -/
def mergeLast2 (l : List SubtitleLine) : List SubtitleLine :=
  let a := l.getD (l.length - 2) ⟨[], []⟩
  let b := l.getD (l.length - 1) ⟨[], []⟩
  l.take (l.length - 2) ++ [⟨a.text ++ ' ' :: b.text, a.font_type⟩]

/-- Merge the first two lines of `after`, as
`after[0] = merged; after.pop(1)`. -/
def mergeFirst2 : List SubtitleLine → List SubtitleLine
  | a :: b :: rest => ⟨a.text ++ ' ' :: b.text, a.font_type⟩ :: rest
  | l => l

/-- First merge loop of `_optimize_lines`: while both sides have more
than one line, merge on the longer side (ties merge `before`). Fuel-coded
loop; `merge_balance` supplies enough fuel for full execution. -/
def merge_balance_go : Nat → List SubtitleLine → List SubtitleLine →
    List SubtitleLine × List SubtitleLine
  | 0, before, after => (before, after)
  | fuel + 1, before, after =>
    if 1 < before.length ∧ 1 < after.length then
      if after.length ≤ before.length then
        merge_balance_go fuel (mergeLast2 before) after
      else
        merge_balance_go fuel before (mergeFirst2 after)
    else (before, after)

def merge_balance (before after : List SubtitleLine) :
    List SubtitleLine × List SubtitleLine :=
  merge_balance_go (before.length + after.length) before after

/-- Second merge loop of `_optimize_lines`: while more than three lines
remain, merge extras into adjacent lines (before first, then after). -/
def merge_excess_go : Nat → List SubtitleLine → List SubtitleLine →
    List SubtitleLine × List SubtitleLine
  | 0, before, after => (before, after)
  | fuel + 1, before, after =>
    if 3 < before.length + 1 + after.length then
      if 1 < before.length then merge_excess_go fuel (mergeLast2 before) after
      else if 1 < after.length then
        merge_excess_go fuel before (mergeFirst2 after)
      else (before, after)
    else (before, after)

def merge_excess (before after : List SubtitleLine) :
    List SubtitleLine × List SubtitleLine :=
  merge_excess_go (before.length + after.length) before after

/-- Inner step of the alternation fix: when the two supporting lines at
`idx1` and `idx2` share a font, flip the second to the alternate
supporting font. -/
def fixSecond (highlight_font : Str) (supporting_fonts : List Str)
    (result : List SubtitleLine) (idx1 idx2 : Nat) : List SubtitleLine :=
  if (result.getD idx1 ⟨[], []⟩).font_type =
      (result.getD idx2 ⟨[], []⟩).font_type then
    result.set idx2 ⟨(result.getD idx2 ⟨[], []⟩).text,
      if (result.getD idx1 ⟨[], []⟩).font_type = supporting_fonts.getD 0 []
      then supporting_fonts.getD 1 []
      else supporting_fonts.getD 0 []⟩
  else result

/-- Final step of `_optimize_lines`: on a 3-line result with two
supporting lines sharing a font while two supporting fonts exist, flip
the second one to the alternate font. -/
def fixAlternation (highlight_font : Str) (supporting_fonts : List Str)
    (result : List SubtitleLine) : List SubtitleLine :=
  if result.length = 3 ∧ 2 ≤ supporting_fonts.length then
    if ((result.enum.filter
        (fun p => p.2.font_type != highlight_font)).map (·.1)).length = 2 then
      fixSecond highlight_font supporting_fonts result
        (((result.enum.filter
          (fun p => p.2.font_type != highlight_font)).map (·.1)).getD 0 0)
        (((result.enum.filter
          (fun p => p.2.font_type != highlight_font)).map (·.1)).getD 1 0)
    else result
  else result

/-- `HybridLineDivider._optimize_lines`: cap the line count at three by
merging around the highlight line. -/
def _optimize_lines (fc : FontConfig) (lines : List SubtitleLine)
    (supporting_fonts : List Str) : List SubtitleLine :=
  if lines.length ≤ 3 then lines
  else
    let highlight_font := fc.get_highlight_font
    match lines.findIdx? (fun l => l.font_type == highlight_font) with
    | none =>
      (List.range (min 3 lines.length)).map fun i =>
        ⟨(lines.getD i ⟨[], []⟩).text,
         supporting_fonts.getD (i % supporting_fonts.length) []⟩
    | some highlight_idx =>
      let before := lines.take highlight_idx
      let highlight := lines.getD highlight_idx ⟨[], []⟩
      let after := lines.drop (highlight_idx + 1)
      let p1 := merge_balance before after
      let p2 := merge_excess p1.1 p1.2
      fixAlternation highlight_font supporting_fonts (p2.1 ++ [highlight] ++ p2.2)

/-- The raw highlighted layout of `divide_group` before `_optimize_lines`:
before-chunks with round-robin supporting fonts, the highlight word as its
own line in the highlight font, then after-chunks continuing the
round-robin. -/
def raw_lines (maxWords : Nat) (fc : FontConfig) (text h : Str)
    (highlight_idx : Nat) : List SubtitleLine :=
  let words := pySplit text
  let before_words := words.take highlight_idx
  let after_words := words.drop (highlight_idx + 1)
  let highlight_font := fc.get_highlight_font
  let supporting_fonts := fc.get_supporting_fonts
  let before_chunks := _chunk_words before_words maxWords
  let beforeLines :=
    if before_words.isEmpty then []
    else before_chunks.enum.map fun p =>
      SubtitleLine.mk (joinSpace p.2)
        (supporting_fonts.getD (p.1 % supporting_fonts.length) [])
  let afterLines :=
    if after_words.isEmpty then []
    else
      let start_idx :=
        if before_words.isEmpty then 0
        else before_chunks.length % supporting_fonts.length
      (_chunk_words after_words maxWords).enum.map fun p =>
        SubtitleLine.mk (joinSpace p.2)
          (supporting_fonts.getD ((start_idx + p.1) % supporting_fonts.length) [])
  beforeLines ++ [SubtitleLine.mk h highlight_font] ++ afterLines

/-- `HybridLineDivider.divide_group`. -/
def divide_group (maxWords : Nat) (fc : FontConfig)
    (group : GroupWithHighlight) : SubtitleGroup :=
  if !fc.should_use_highlight then
    _divide_without_highlight maxWords fc group.group_text
  else match group.highlight_word with
  | none => _divide_without_highlight maxWords fc group.group_text
  | some h =>
    if h.isEmpty || !containsSub h group.group_text then
      _divide_without_highlight maxWords fc group.group_text
    else
      let words := pySplit group.group_text
      let clean_words := words.map _clean_word
      let clean_highlight := _clean_word h
      match clean_words.findIdx? (· == clean_highlight) with
      | none => _divide_without_highlight maxWords fc group.group_text
      | some highlight_idx =>
        ⟨group.group_text,
         _optimize_lines fc
           (raw_lines maxWords fc group.group_text h highlight_idx)
           fc.get_supporting_fonts⟩

end HybridLineDivider

/-! ### Line-count bound lemmas -/

namespace HybridLineDivider

theorem mergeLast2_length (l : List SubtitleLine) (h : 2 ≤ l.length) :
    (mergeLast2 l).length = l.length - 1 := by
  simp only [mergeLast2, List.length_append, List.length_take,
    List.length_singleton]
  omega

theorem mergeFirst2_length (l : List SubtitleLine) (h : 2 ≤ l.length) :
    (mergeFirst2 l).length = l.length - 1 := by
  match l, h with
  | a :: b :: rest, _ => simp [mergeFirst2]

theorem merge_excess_go_le :
    ∀ (fuel : Nat) (b a : List SubtitleLine), b.length + a.length ≤ fuel →
      (merge_excess_go fuel b a).1.length + 1 +
        (merge_excess_go fuel b a).2.length ≤ 3 := by
  intro fuel
  induction fuel with
  | zero =>
    intro b a hf
    have hb : b.length = 0 := by omega
    have ha : a.length = 0 := by omega
    simp [merge_excess_go, hb, ha]
  | succ fuel ih =>
    intro b a hf
    by_cases hc : 3 < b.length + 1 + a.length
    · by_cases hb : 1 < b.length
      · have hml := mergeLast2_length b (by omega)
        have := ih (mergeLast2 b) a (by omega)
        simpa [merge_excess_go, hc, hb] using this
      · by_cases ha : 1 < a.length
        · have hmf := mergeFirst2_length a (by omega)
          have := ih b (mergeFirst2 a) (by omega)
          simpa [merge_excess_go, hc, hb, ha] using this
        · simp only [merge_excess_go, hc, if_true, hb, if_false, ha]
          omega
    · simp only [merge_excess_go, hc, if_false]
      omega

theorem fixSecond_length (hf : Str) (sup : List Str)
    (r : List SubtitleLine) (i1 i2 : Nat) :
    (fixSecond hf sup r i1 i2).length = r.length := by
  rw [fixSecond]
  split
  · simp [List.length_set]
  · rfl

theorem fixAlternation_length (hf : Str) (sup : List Str)
    (r : List SubtitleLine) : (fixAlternation hf sup r).length = r.length := by
  rw [fixAlternation]
  split
  · split
    · rw [fixSecond_length]
    · rfl
  · rfl

/-- `_optimize_lines` always returns between one and three lines on a
nonempty input. -/
theorem _optimize_lines_bound (fc : FontConfig) (lines : List SubtitleLine)
    (sup : List Str) (hne : lines ≠ []) :
    1 ≤ (_optimize_lines fc lines sup).length ∧
      (_optimize_lines fc lines sup).length ≤ 3 := by
  by_cases h3 : lines.length ≤ 3
  · have h1 : 1 ≤ lines.length := by
      cases lines with
      | nil => exact absurd rfl hne
      | cons a as => simp
    rw [_optimize_lines, if_pos h3]
    exact ⟨h1, h3⟩
  · rcases hfi : lines.findIdx? (fun l => l.font_type == fc.get_highlight_font)
      with _ | highlight_idx
    · simp only [_optimize_lines, h3, if_false, hfi, List.length_map,
        List.length_range]
      omega
    · have hme := merge_excess_go_le
        ((merge_balance (lines.take highlight_idx)
            (lines.drop (highlight_idx + 1))).1.length +
          (merge_balance (lines.take highlight_idx)
            (lines.drop (highlight_idx + 1))).2.length)
        (merge_balance (lines.take highlight_idx)
            (lines.drop (highlight_idx + 1))).1
        (merge_balance (lines.take highlight_idx)
            (lines.drop (highlight_idx + 1))).2
        (le_refl _)
      simp only [_optimize_lines, h3, if_false, hfi, fixAlternation_length,
        merge_excess, List.length_append, List.length_singleton]
      constructor
      · omega
      · simpa [merge_excess, List.length_append] using hme

end HybridLineDivider

/-- **C6 (amended).** On the highlighted path (style uses highlights, a
nonempty highlight word occurs as a substring of the text and its cleaned
form is found among the cleaned tokens), `HybridLineDivider.divide_group`
produces between 1 and 3 lines — `_optimize_lines` enforces the cap. The
unhighlighted path `_divide_without_highlight` applies no cap: it emits
`ceil(n / max_words_per_line)` lines, which can exceed 3 (and 0 lines for
an empty text), so the claimed bound fails there. -/
theorem divide_group_line_bound (maxWords : Nat) (fc : FontConfig)
    (g : GroupWithHighlight) (h : Str) (i : Nat)
    (hbold : fc.should_use_highlight = true)
    (hh : g.highlight_word = some h)
    (hne : h.isEmpty = false)
    (hsub : containsSub h g.group_text = true)
    (hidx : ((pySplit g.group_text).map _clean_word).findIdx?
      (· == _clean_word h) = some i) :
    1 ≤ (HybridLineDivider.divide_group maxWords fc g).lines.length ∧
    (HybridLineDivider.divide_group maxWords fc g).lines.length ≤ 3 := by
  have hraw : HybridLineDivider.raw_lines maxWords fc g.group_text h i ≠ [] := by
    rw [HybridLineDivider.raw_lines]
    simp
  have hopt := HybridLineDivider._optimize_lines_bound fc
    (HybridLineDivider.raw_lines maxWords fc g.group_text h i)
    fc.get_supporting_fonts hraw
  rw [HybridLineDivider.divide_group]
  simp only [hbold, Bool.not_true, Bool.false_eq_true, if_false, hh, hne,
    hsub, Bool.not_true, Bool.or_false, hidx]
  exact hopt

/-- Concrete check of C6 (amended): the Scenario-B inputs (bold config,
highlight "fox" at cleaned index 3) give a group with between 1 and 3
lines. -/
theorem divide_group_line_bound_witness :
    1 ≤ (HybridLineDivider.divide_group 2 ⟨true, false, true⟩
      ⟨strL "the quick brown fox jumps", some (strL "fox")⟩).lines.length ∧
    (HybridLineDivider.divide_group 2 ⟨true, false, true⟩
      ⟨strL "the quick brown fox jumps", some (strL "fox")⟩).lines.length ≤ 3 :=
  divide_group_line_bound 2 ⟨true, false, true⟩
    ⟨strL "the quick brown fox jumps", some (strL "fox")⟩ (strL "fox") 3
    (by decide) rfl (by decide) (by decide) (by decide)

/-- **C6 counterexample.** On the unhighlighted path the bound fails: a
normal-only style (no highlight) with `max_words_per_line = 2` and an
8-word group yields 4 lines, exceeding the claimed maximum of 3. -/
theorem divide_group_line_bound_counterexample :
    (HybridLineDivider.divide_group 2 ⟨false, false, true⟩
      ⟨strL "a b c d e f g h", none⟩).lines.length = 4 ∧
    ¬ (HybridLineDivider.divide_group 2 ⟨false, false, true⟩
      ⟨strL "a b c d e f g h", none⟩).lines.length ≤ 3 := by
  constructor
  · decide
  · decide

/-- **C7.** Scenario B: group text "the quick brown fox jumps" with
highlight "fox", `max_words_per_line = 2` and a bold font configuration:
the raw highlighted layout has 4 lines, and the merge step reduces the
result to exactly ["the quick brown" (normal), "fox" (bold),
"jumps" (normal)], in that order. -/
theorem divide_group_scenario_b :
    (HybridLineDivider.raw_lines 2 ⟨true, false, true⟩
      (strL "the quick brown fox jumps") (strL "fox") 3).length = 4 ∧
    HybridLineDivider.divide_group 2 ⟨true, false, true⟩
        ⟨strL "the quick brown fox jumps", some (strL "fox")⟩ =
      ⟨strL "the quick brown fox jumps",
       [⟨strL "the quick brown", strL "normal"⟩,
        ⟨strL "fox", strL "bold"⟩,
        ⟨strL "jumps", strL "normal"⟩]⟩ := by
  constructor
  · decide
  · decide

/-! ## Timestamp matcher (`subtitle_generator/timestamp_matcher.py`) -/

/-- `TimestampMatcher.normalize_word`:
`re.sub(r'[^\w\s]', '', word.lower()).strip()`. -/
def normalize_word (w : Str) : Str :=
  stripWs ((w.map Char.toLower).filter (fun c => isWordChar c || isSpaceChar c))

/-- The `phrase_words` list-comprehension of the matcher: tokenize the
phrase, normalize, and keep the nonempty normalizations. -/
def phrase_words (phrase : Str) : List Str :=
  ((findallTokens phrase).map normalize_word).filter (fun s => !s.isEmpty)

/-- The `transcript_words` comprehension: normalized timestamp tokens. -/
def transcript_words (wts : List WordTimestamp) : List Str :=
  wts.map (fun w => normalize_word w.word)

/-- The slice comparison
`transcript_words[i:i+len(phrase_words)] == phrase_words`. -/
def matchesAt (tw pw : List Str) (i : Nat) : Bool :=
  (tw.drop i).take pw.length == pw

/-- The scan `for i in range(start, len(tw) - len(pw) + 1)` returning the
first matching index. -/
def firstMatchFrom (tw pw : List Str) (start : Nat) : Option Nat :=
  (List.range' start (tw.length + 1 - pw.length - start)).find?
    (fun i => matchesAt tw pw i)

/-- `TimestampMatcher.find_phrase_timestamp_sequential`: search from
`search_start_idx`, fall back to a full scan from 0, else return the
zero-timestamp sentinel with the cursor indices unchanged. -/
def find_phrase_timestamp_sequential (wts : List WordTimestamp)
    (phrase : Str) (search_start_idx : Nat) : Rat × Rat × Nat × Nat :=
  if (phrase_words phrase).isEmpty then
    (0, 0, search_start_idx, search_start_idx)
  else
    match firstMatchFrom (transcript_words wts) (phrase_words phrase)
        search_start_idx with
    | some i =>
      ((wts.getD i ⟨[], 0, 0⟩).start,
       (wts.getD (i + (phrase_words phrase).length - 1) ⟨[], 0, 0⟩).«end»,
       i, i + (phrase_words phrase).length - 1)
    | none =>
      match firstMatchFrom (transcript_words wts) (phrase_words phrase) 0 with
      | some i =>
        ((wts.getD i ⟨[], 0, 0⟩).start,
         (wts.getD (i + (phrase_words phrase).length - 1) ⟨[], 0, 0⟩).«end»,
         i, i + (phrase_words phrase).length - 1)
      | none => (0, 0, search_start_idx, search_start_idx)

/-- Decimal digits of a `Nat`, as used in the id f-strings. -/
def natStr (n : Nat) : Str := (Nat.repr n).toList

/-- A word-detail dict built by `get_word_timestamps_sequential`. -/
structure WordDetail where
  word : Str
  start : Rat
  «end» : Rat
  id : Str
deriving DecidableEq, Repr

/-- The word loop of `get_word_timestamps_sequential`: break past
`end_idx`, emit a detail per token while in range. -/
def gwts_go (wts : List WordTimestamp) (end_idx : Nat) :
    List Str → Nat → List WordDetail
  | [], _ => []
  | w :: ws, word_idx =>
    if end_idx < word_idx then []
    else
      (if word_idx < wts.length then
        [⟨w, (wts.getD word_idx ⟨[], 0, 0⟩).start,
          (wts.getD word_idx ⟨[], 0, 0⟩).«end»,
          strL "word-" ++ natStr word_idx⟩]
       else []) ++ gwts_go wts end_idx ws (word_idx + 1)

/-- `TimestampMatcher.get_word_timestamps_sequential`. (`start_idx < 0`
cannot arise in this `Nat`-indexed embedding.) -/
def get_word_timestamps_sequential (wts : List WordTimestamp)
    (line_text : Str) (start_idx end_idx : Nat) : List WordDetail :=
  if wts.length ≤ end_idx ∨ end_idx < start_idx then []
  else gwts_go wts end_idx (findallTokens line_text) start_idx

/-- A line dict consumed by `process_groups` (`text`, `font_type`). -/
structure LineData where
  text : Str
  font_type : Str
deriving DecidableEq, Repr

/-- A group dict consumed by `process_groups`. -/
structure GroupData where
  group_text : Str
  lines : List LineData
deriving DecidableEq, Repr

/-- `models.ProcessedLine`. -/
structure ProcessedLine where
  text : Str
  font_type : Str
  start : Rat
  «end» : Rat
  words : List WordDetail
deriving DecidableEq, Repr

/-- `models.ProcessedGroup`. -/
structure ProcessedGroup where
  id : Str
  group_text : Str
  start : Rat
  «end» : Rat
  lines : List ProcessedLine
deriving DecidableEq, Repr

/-- The per-line body of `process_groups`: locate the line from the line
cursor, clamp to the group bounds, advance the line cursor when the match
moved it forward, and extract word details. -/
def process_line (wts : List WordTimestamp) (gstart gend : Rat)
    (line : LineData) (line_search_idx : Nat) : ProcessedLine × Nat :=
  let r := find_phrase_timestamp_sequential wts line.text line_search_idx
  let line_start := if r.1 < gstart then gstart else r.1
  let line_end := if gend < r.2.1 then gend else r.2.1
  let new_idx :=
    if line_search_idx < r.2.2.2 then r.2.2.2 + 1 else line_search_idx
  (⟨line.text, line.font_type, line_start, line_end,
    get_word_timestamps_sequential wts line.text r.2.2.1 r.2.2.2⟩,
   new_idx)

/-- The line loop of `process_groups`, threading the line cursor. -/
def process_lines (wts : List WordTimestamp) (gstart gend : Rat) :
    List LineData → Nat → List ProcessedLine
  | [], _ => []
  | l :: ls, idx =>
    (process_line wts gstart gend l idx).1 ::
      process_lines wts gstart gend ls (process_line wts gstart gend l idx).2

/-- The group loop of `TimestampMatcher.process_groups`: locate each group
from the shared cursor; advance the cursor to `end_idx + 1` unless the
returned timestamps are the `(0.0, 0.0)` sentinel. -/
def process_groups_go (wts : List WordTimestamp) :
    List GroupData → Nat → Nat → List ProcessedGroup
  | [], _, _ => []
  | g :: gs, current_search_idx, idx =>
    let r := find_phrase_timestamp_sequential wts g.group_text
      current_search_idx
    let new_cursor :=
      if r.1 = 0 ∧ r.2.1 = 0 then current_search_idx else r.2.2.2 + 1
    ⟨strL "group-" ++ natStr idx, g.group_text, r.1, r.2.1,
     process_lines wts r.1 r.2.1 g.lines r.2.2.1⟩ ::
      process_groups_go wts gs new_cursor (idx + 1)

/-- `TimestampMatcher.process_groups` (cursor reset to 0). -/
def process_groups (wts : List WordTimestamp) (groups : List GroupData) :
    List ProcessedGroup :=
  process_groups_go wts groups 0 0

/-! ### Sequential-search characterization -/

/-- Declarative match predicate: the normalized transcript tokens from
`i` start with the phrase tokens. -/
def isMatchAt (tw pw : List Str) (i : Nat) : Prop :=
  (tw.drop i).take pw.length = pw

instance (tw pw : List Str) (i : Nat) : Decidable (isMatchAt tw pw i) := by
  unfold isMatchAt
  infer_instance

theorem matchesAt_iff (tw pw : List Str) (i : Nat) :
    matchesAt tw pw i = true ↔ isMatchAt tw pw i := by
  simp [matchesAt, isMatchAt]

theorem isMatchAt_bound {tw pw : List Str} {i : Nat} (hpw : pw ≠ [])
    (h : isMatchAt tw pw i) : i + pw.length ≤ tw.length := by
  have hlen := congrArg List.length h
  simp only [List.length_take, List.length_drop] at hlen
  have hpos : 0 < pw.length := by
    cases pw with
    | nil => exact absurd rfl hpw
    | cons a as => simp
  omega

theorem find?_range'_eq_some (p : Nat → Bool) :
    ∀ (n s i : Nat), (List.range' s n).find? p = some i ↔
      (s ≤ i ∧ i < s + n ∧ p i = true ∧
        ∀ j, s ≤ j → j < i → p j = false) := by
  intro n
  induction n with
  | zero =>
    intro s i
    constructor
    · intro h
      rw [show List.range' s 0 = [] from rfl] at h
      simp [List.find?] at h
    · rintro ⟨h1, h2, _, _⟩
      omega
  | succ n ih =>
    intro s i
    rw [List.range'_succ, List.find?_cons]
    by_cases hp : p s
    · simp only [hp, if_pos rfl]
      constructor
      · intro h
        have : s = i := by simpa using h
        subst this
        exact ⟨le_refl s, by omega, hp, fun j h1 h2 => by omega⟩
      · rintro ⟨h1, _, _, h4⟩
        rcases Nat.lt_or_ge s i with h | h
        · exact absurd hp (by simp [h4 s (le_refl s) h])
        · have : i = s := by omega
          simp [this]
    · have hps : p s = false := by simpa using hp
      simp only [hps]
      rw [ih (s + 1) i]
      constructor
      · rintro ⟨h1, h2, h3, h4⟩
        refine ⟨by omega, by omega, h3, ?_⟩
        intro j hj1 hj2
        rcases Nat.eq_or_lt_of_le hj1 with h | h
        · subst h; exact hps
        · exact h4 j h hj2
      · rintro ⟨h1, h2, h3, h4⟩
        have hne : s ≠ i := by
          intro h; subst h; rw [h3] at hps; exact Bool.noConfusion hps
        refine ⟨by omega, by omega, h3, ?_⟩
        intro j hj1 hj2
        exact h4 j (by omega) hj2

theorem firstMatchFrom_some (tw pw : List Str) (hpw : pw ≠ []) (s i : Nat) :
    firstMatchFrom tw pw s = some i ↔
      (s ≤ i ∧ isMatchAt tw pw i ∧
        ∀ j, s ≤ j → j < i → ¬ isMatchAt tw pw j) := by
  rw [firstMatchFrom, find?_range'_eq_some]
  constructor
  · rintro ⟨h1, _, h3, h4⟩
    refine ⟨h1, (matchesAt_iff tw pw i).mp h3, ?_⟩
    intro j hj1 hj2 hm
    have := h4 j hj1 hj2
    rw [(matchesAt_iff tw pw j).mpr hm] at this
    exact Bool.noConfusion this
  · rintro ⟨h1, h2, h3⟩
    have hb := isMatchAt_bound hpw h2
    have hpos : 0 < pw.length := by
      cases pw with
      | nil => exact absurd rfl hpw
      | cons a as => simp
    refine ⟨h1, by omega, (matchesAt_iff tw pw i).mpr h2, ?_⟩
    intro j hj1 hj2
    by_cases hm : isMatchAt tw pw j
    · exact absurd hm (h3 j hj1 hj2)
    · refine Bool.eq_false_iff.mpr ?_
      intro hb
      exact hm ((matchesAt_iff tw pw j).mp hb)

theorem firstMatchFrom_none (tw pw : List Str) (hpw : pw ≠ []) (s : Nat) :
    firstMatchFrom tw pw s = none ↔ ∀ j, s ≤ j → ¬ isMatchAt tw pw j := by
  rw [firstMatchFrom, List.find?_eq_none]
  constructor
  · intro h j hj hm
    have hb := isMatchAt_bound hpw hm
    have hpos : 0 < pw.length := by
      cases pw with
      | nil => exact absurd rfl hpw
      | cons a as => simp
    have hjr : j ∈ List.range' s (tw.length + 1 - pw.length - s) := by
      rw [List.mem_range'_1]
      omega
    exact absurd ((matchesAt_iff tw pw j).mpr hm) (by simpa using h j hjr)
  · intro h j hj
    rw [List.mem_range'_1] at hj
    have hm := h j hj.1
    intro hb
    exact hm ((matchesAt_iff tw pw j).mp hb)

theorem fpts_eq_of_some (wts : List WordTimestamp) (phrase : Str)
    (s i : Nat) (hpw : phrase_words phrase ≠ [])
    (hfm : firstMatchFrom (transcript_words wts) (phrase_words phrase) s =
      some i) :
    find_phrase_timestamp_sequential wts phrase s =
      ((wts.getD i ⟨[], 0, 0⟩).start,
       (wts.getD (i + (phrase_words phrase).length - 1) ⟨[], 0, 0⟩).«end»,
       i, i + (phrase_words phrase).length - 1) := by
  rw [find_phrase_timestamp_sequential]
  simp only [isEmpty_false_of_ne_nil hpw, Bool.false_eq_true, if_false, hfm]

theorem fpts_eq_fallback (wts : List WordTimestamp) (phrase : Str)
    (s i : Nat) (hpw : phrase_words phrase ≠ [])
    (hfm : firstMatchFrom (transcript_words wts) (phrase_words phrase) s =
      none)
    (hfm0 : firstMatchFrom (transcript_words wts) (phrase_words phrase) 0 =
      some i) :
    find_phrase_timestamp_sequential wts phrase s =
      ((wts.getD i ⟨[], 0, 0⟩).start,
       (wts.getD (i + (phrase_words phrase).length - 1) ⟨[], 0, 0⟩).«end»,
       i, i + (phrase_words phrase).length - 1) := by
  rw [find_phrase_timestamp_sequential]
  simp only [isEmpty_false_of_ne_nil hpw, Bool.false_eq_true, if_false, hfm,
    hfm0]

theorem fpts_eq_miss (wts : List WordTimestamp) (phrase : Str) (s : Nat)
    (hpw : phrase_words phrase ≠ [])
    (hfm : firstMatchFrom (transcript_words wts) (phrase_words phrase) s =
      none)
    (hfm0 : firstMatchFrom (transcript_words wts) (phrase_words phrase) 0 =
      none) :
    find_phrase_timestamp_sequential wts phrase s = (0, 0, s, s) := by
  rw [find_phrase_timestamp_sequential]
  simp only [isEmpty_false_of_ne_nil hpw, Bool.false_eq_true, if_false, hfm,
    hfm0]

theorem process_groups_go_cons (wts : List WordTimestamp) (g : GroupData)
    (gs : List GroupData) (cursor idx : Nat) (s e : Rat) (si ei : Nat)
    (h : find_phrase_timestamp_sequential wts g.group_text cursor =
      (s, e, si, ei)) :
    process_groups_go wts (g :: gs) cursor idx =
      ⟨strL "group-" ++ natStr idx, g.group_text, s, e,
       process_lines wts s e g.lines si⟩ ::
        process_groups_go wts gs
          (if s = 0 ∧ e = 0 then cursor else ei + 1) (idx + 1) := by
  simp only [process_groups_go, h]

/-- **C1 (amended).** `process_groups` keeps a single forward cursor. For
a group whose phrase tokenizes nonempty, `find_phrase_timestamp_sequential`
returns: the first match at or after the cursor when one exists; otherwise
the first match of a full scan from index 0; otherwise the zero-timestamp
sentinel `(0.0, 0.0)` with the cursor indices. `process_groups` then
advances the cursor to `end_idx + 1` **iff the returned timestamps differ
from `(0.0, 0.0)`** — in particular a genuine match whose start and end
times are both `0.0` is treated like a miss and leaves the cursor
unchanged, so the next group still searches from the last
nonzero-timestamped match's end. -/
theorem timestamp_matcher_sequential_cursor
    (wts : List WordTimestamp) (g : GroupData) (gs : List GroupData)
    (cursor idx : Nat) (hpw : phrase_words g.group_text ≠ []) :
    ∃ s e si ei,
      find_phrase_timestamp_sequential wts g.group_text cursor =
        (s, e, si, ei) ∧
      process_groups_go wts (g :: gs) cursor idx =
        ⟨strL "group-" ++ natStr idx, g.group_text, s, e,
         process_lines wts s e g.lines si⟩ ::
          process_groups_go wts gs
            (if s = 0 ∧ e = 0 then cursor else ei + 1) (idx + 1) ∧
      (∀ i, cursor ≤ i →
        isMatchAt (transcript_words wts) (phrase_words g.group_text) i →
        (∀ j, cursor ≤ j → j < i →
          ¬ isMatchAt (transcript_words wts) (phrase_words g.group_text) j) →
        (s, e, si, ei) =
          ((wts.getD i ⟨[], 0, 0⟩).start,
           (wts.getD (i + (phrase_words g.group_text).length - 1)
             ⟨[], 0, 0⟩).«end»,
           i, i + (phrase_words g.group_text).length - 1)) ∧
      ((∀ j, cursor ≤ j →
          ¬ isMatchAt (transcript_words wts) (phrase_words g.group_text) j) →
        ∀ i, isMatchAt (transcript_words wts) (phrase_words g.group_text) i →
        (∀ j, j < i →
          ¬ isMatchAt (transcript_words wts) (phrase_words g.group_text) j) →
        (s, e, si, ei) =
          ((wts.getD i ⟨[], 0, 0⟩).start,
           (wts.getD (i + (phrase_words g.group_text).length - 1)
             ⟨[], 0, 0⟩).«end»,
           i, i + (phrase_words g.group_text).length - 1)) ∧
      ((∀ i, ¬ isMatchAt (transcript_words wts)
          (phrase_words g.group_text) i) →
        (s, e, si, ei) = (0, 0, cursor, cursor)) := by
  rcases hfm : firstMatchFrom (transcript_words wts)
      (phrase_words g.group_text) cursor with _ | i0
  · rcases hfm0 : firstMatchFrom (transcript_words wts)
        (phrase_words g.group_text) 0 with _ | i0
    · -- no match anywhere: zero-timestamp sentinel, cursor unchanged
      refine ⟨0, 0, cursor, cursor,
        fpts_eq_miss wts g.group_text cursor hpw hfm hfm0,
        process_groups_go_cons wts g gs cursor idx 0 0 cursor cursor
          (fpts_eq_miss wts g.group_text cursor hpw hfm hfm0),
        ?_, ?_, ?_⟩
      · intro i hi hm _
        exact absurd hm
          (((firstMatchFrom_none _ _ hpw cursor).mp hfm) i hi)
      · intro _ i hm _
        exact absurd hm
          (((firstMatchFrom_none _ _ hpw 0).mp hfm0) i (Nat.zero_le i))
      · intro _
        rfl
    · -- no match at/after the cursor: fall back to the full scan
      obtain ⟨_, hm0, hmin0⟩ :=
        (firstMatchFrom_some _ _ hpw 0 i0).mp hfm0
      refine ⟨(wts.getD i0 ⟨[], 0, 0⟩).start,
        (wts.getD (i0 + (phrase_words g.group_text).length - 1)
          ⟨[], 0, 0⟩).«end»,
        i0, i0 + (phrase_words g.group_text).length - 1,
        fpts_eq_fallback wts g.group_text cursor i0 hpw hfm hfm0,
        process_groups_go_cons wts g gs cursor idx _ _ _ _
          (fpts_eq_fallback wts g.group_text cursor i0 hpw hfm hfm0),
        ?_, ?_, ?_⟩
      · intro i hi hm _
        exact absurd hm
          (((firstMatchFrom_none _ _ hpw cursor).mp hfm) i hi)
      · intro _ i hm hmin
        have : i = i0 := by
          by_contra hne
          rcases Nat.lt_or_ge i i0 with h | h
          · exact hmin0 i (Nat.zero_le i) h hm
          · have : i0 < i := by omega
            exact hmin i0 this hm0
        subst this
        rfl
      · intro hno
        exact absurd hm0 (hno i0)
  · -- first match at or after the cursor
    obtain ⟨hle0, hm0, hmin0⟩ :=
      (firstMatchFrom_some _ _ hpw cursor i0).mp hfm
    refine ⟨(wts.getD i0 ⟨[], 0, 0⟩).start,
      (wts.getD (i0 + (phrase_words g.group_text).length - 1)
        ⟨[], 0, 0⟩).«end»,
      i0, i0 + (phrase_words g.group_text).length - 1,
      fpts_eq_of_some wts g.group_text cursor i0 hpw hfm,
      process_groups_go_cons wts g gs cursor idx _ _ _ _
        (fpts_eq_of_some wts g.group_text cursor i0 hpw hfm),
      ?_, ?_, ?_⟩
    · intro i hi hm hmin
      have : i = i0 := by
        by_contra hne
        rcases Nat.lt_or_ge i i0 with h | h
        · exact hmin0 i hi h hm
        · have : i0 < i := by omega
          exact hmin i0 hle0 this hm0
      subst this
      rfl
    · intro hno
      exact absurd hm0 (hno i0 hle0)
    · intro hno
      exact absurd hm0 (hno i0)

/-- Concrete check of C1 (amended): phrase "world" over
[("hello",1,2), ("world",3,4)] from cursor 0 matches at index 1 and
returns its timestamps and indices. -/
theorem timestamp_matcher_sequential_cursor_witness :
    find_phrase_timestamp_sequential
      [⟨strL "hello", 1, 2⟩, ⟨strL "world", 3, 4⟩] (strL "world") 0 =
      (3, 4, 1, 1) := by
  obtain ⟨s, e, si, ei, heq, _, ha, _, _⟩ :=
    timestamp_matcher_sequential_cursor
      [⟨strL "hello", 1, 2⟩, ⟨strL "world", 3, 4⟩]
      ⟨strL "world", []⟩ [] 0 0 (by decide)
  have hi := ha 1 (by omega) (by decide)
    (by intro j _ hj
        have : j = 0 := by omega
        subst this
        decide)
  rw [heq, hi]
  decide

/-- Modelled from the claim's cursor rule (for comparison with the code):
the cursor advances to `end_idx + 1` whenever the phrase occurs somewhere
in the transcript — i.e. on every successful match, with no check of the
returned timestamps. -/
def process_groups_claim_go (wts : List WordTimestamp) :
    List GroupData → Nat → Nat → List ProcessedGroup
  | [], _, _ => []
  | g :: gs, current_search_idx, idx =>
    let r := find_phrase_timestamp_sequential wts g.group_text
      current_search_idx
    let found := !(phrase_words g.group_text).isEmpty &&
      (firstMatchFrom (transcript_words wts)
        (phrase_words g.group_text) 0).isSome
    let new_cursor := if found then r.2.2.2 + 1 else current_search_idx
    ⟨strL "group-" ++ natStr idx, g.group_text, r.1, r.2.1,
     process_lines wts r.1 r.2.1 g.lines r.2.2.1⟩ ::
      process_groups_claim_go wts gs new_cursor (idx + 1)

/-- The claim's cursor rule lifted to `process_groups`. -/
def process_groups_claim (wts : List WordTimestamp)
    (groups : List GroupData) : List ProcessedGroup :=
  process_groups_claim_go wts groups 0 0

/-- **C1 counterexample.** With word timestamps [("a",0,0), ("a",1,2)] and
two groups "a", "a": group 0 matches at index 0, but its timestamps are
(0.0, 0.0), so the code does *not* advance the cursor (the sentinel check
mistakes the match for a miss) and group 1 re-matches index 0, returning
(0.0, 0.0). Under the claim's rule — advance on every match — group 1
would search from index 1 and return (1.0, 2.0). -/
theorem timestamp_matcher_cursor_counterexample :
    ((process_groups [⟨strL "a", 0, 0⟩, ⟨strL "a", 1, 2⟩]
      [⟨strL "a", []⟩, ⟨strL "a", []⟩]).map (fun p => (p.start, p.«end»)) =
      [(0, 0), (0, 0)]) ∧
    ((process_groups_claim [⟨strL "a", 0, 0⟩, ⟨strL "a", 1, 2⟩]
      [⟨strL "a", []⟩, ⟨strL "a", []⟩]).map (fun p => (p.start, p.«end»)) =
      [(0, 0), (1, 2)]) ∧
    process_groups [⟨strL "a", 0, 0⟩, ⟨strL "a", 1, 2⟩]
      [⟨strL "a", []⟩, ⟨strL "a", []⟩] ≠
    process_groups_claim [⟨strL "a", 0, 0⟩, ⟨strL "a", 1, 2⟩]
      [⟨strL "a", []⟩, ⟨strL "a", []⟩] := by
  exact ⟨by decide, by decide, by decide⟩

/-! ## Chunker input handling (`TranscriptChunker._extract_words`) -/

/-- One raw word record: a dict (fields defaulted when missing), an
object with `word`/`start`/`end` attributes, or something else (skipped). -/
inductive RawWord where
  | dictW (word : Option Str) (start : Option Rat) («end» : Option Rat)
  | objW (word : Str) (start : Rat) («end» : Rat)
  | other
deriving DecidableEq

/-- The transcript shapes `_extract_words` distinguishes: a dict (with
optional `words` / `word_timestamps` keys), an object with a `words`
attribute, or an object with no such attribute (unrecognized shape). -/
inductive Transcript where
  | dictT (words : Option (List RawWord))
      (word_timestamps : Option (List RawWord))
  | objT (words : List RawWord)
  | objNoWords
deriving DecidableEq

/-- The per-record branch of `_extract_words`. -/
def extract_one : RawWord → List WordTimestamp
  | .dictW w s e => [⟨w.getD [], s.getD 0, e.getD 0⟩]
  | .objW w s e => [⟨w, s, e⟩]
  | .other => []

/-- `TranscriptChunker._extract_words`: `transcript.get('words') or
transcript.get('word_timestamps', [])` for dicts (an empty or missing
`words` value falls through to `word_timestamps`),
`getattr(transcript, 'words', [])` otherwise. -/
def _extract_words : Transcript → List WordTimestamp
  | .dictT words word_timestamps =>
    (match words with
     | some ws => if ws.isEmpty then word_timestamps.getD [] else ws
     | none => word_timestamps.getD []).flatMap extract_one
  | .objT ws => ws.flatMap extract_one
  | .objNoWords => []

/-- Modelled from the spec: the error taxonomy names a **ChunkingError**
(unrecognized transcript shape — fatal). No such exception class or raise
exists anywhere in `chunker.py`; the type exists here only to give the
result an error channel against which the claim can be stated. -/
inductive ChunkingError where
  | unrecognizedShape
deriving DecidableEq

/-- `TranscriptChunker.chunk` on a transcript, with an explicit error
channel: the code contains no `raise`, so every input produces `.ok`. -/
def TranscriptChunker_chunk (maxD : Rat) (t : Transcript) :
    Except ChunkingError (List TranscriptChunk) :=
  let words := _extract_words t
  if words.isEmpty then Except.ok []
  else Except.ok (chunk maxD words)

/-- **C8 (amended).** An empty transcript yields an empty chunk list; a
transcript of unrecognized shape (no words list or attribute) also yields
an empty word list and hence an empty chunk list, returned as a *normal*
result — no ChunkingError is raised anywhere: `chunk` succeeds on every
input shape. -/
theorem chunker_error_handling (maxD : Rat) :
    TranscriptChunker_chunk maxD (.dictT none none) = .ok [] ∧
    TranscriptChunker_chunk maxD .objNoWords = .ok [] ∧
    ∀ t, ∃ r, TranscriptChunker_chunk maxD t = .ok r := by
  refine ⟨rfl, rfl, ?_⟩
  intro t
  rw [TranscriptChunker_chunk]
  by_cases h : (_extract_words t).isEmpty
  · exact ⟨[], by simp [h]⟩
  · exact ⟨chunk maxD (_extract_words t), by simp [h]⟩

/-- **C8 counterexample.** On the unrecognized shape, the code returns the
normal result `ok []` — exactly what it returns for an empty transcript —
rather than failing with a ChunkingError. -/
theorem chunker_error_handling_counterexample :
    TranscriptChunker_chunk 55 Transcript.objNoWords = .ok [] ∧
    TranscriptChunker_chunk 55 Transcript.objNoWords ≠
      .error ChunkingError.unrecognizedShape := by
  refine ⟨rfl, ?_⟩
  intro h
  exact Except.noConfusion h

/-! ## Generation orchestrator retries
(`async_llm_client.py` — `AsyncLLMClient.generate`) -/

/-- Outcome of one external call attempt, by exception class: success,
`asyncio.TimeoutError`, or any other exception. -/
inductive AttemptOutcome (α : Type) where
  | success (a : α)
  | asyncioTimeout
  | otherError
deriving DecidableEq

/-- How `generate` terminates: a returned result, a re-raised timeout, a
re-raised error after the last attempt, or the implicit `None` when
`max_retries = 0` makes the loop body never run. -/
inductive GenOutcome (α : Type) where
  | ok (a : α)
  | timeoutRaised
  | errorRaised
  | noneReturned
deriving DecidableEq

/-- `wait_time = min(30, (2 ** attempt) + (hash(chunk_id) % 10) / 10)`;
`h` stands for the Python `hash(chunk_id)` value (environment-dependent
for string ids). -/
def backoffDelay (h : Int) (attempt : Nat) : Rat :=
  min 30 ((2 : Rat) ^ attempt + ((h % 10 : Int) : Rat) / 10)

/-- The retry loop of `AsyncLLMClient.generate` over an abstract sequence
of attempt outcomes, recorded together with the sleeps performed:
success returns; `asyncio.TimeoutError` re-raises immediately; any other
exception sleeps `backoffDelay` and retries unless this was the last
attempt, in which case it re-raises. `remaining` counts the loop
iterations left (`maxRetries` initially). -/
def generate_go {α : Type} (maxRetries : Nat) (h : Int)
    (outcomes : Nat → AttemptOutcome α) :
    Nat → Nat → GenOutcome α × List Rat
  | 0, _ => (.noneReturned, [])
  | remaining + 1, attempt =>
    match outcomes attempt with
    | .success a => (.ok a, [])
    | .asyncioTimeout => (.timeoutRaised, [])
    | .otherError =>
      if attempt < maxRetries - 1 then
        ((generate_go maxRetries h outcomes remaining (attempt + 1)).1,
         backoffDelay h attempt ::
           (generate_go maxRetries h outcomes remaining (attempt + 1)).2)
      else (.errorRaised, [])

/-- `AsyncLLMClient.generate`, from the first attempt. -/
def generate {α : Type} (maxRetries : Nat) (h : Int)
    (outcomes : Nat → AttemptOutcome α) : GenOutcome α × List Rat :=
  generate_go maxRetries h outcomes maxRetries 0

theorem generate_go_timeout {α : Type} (maxRetries : Nat) (h : Int)
    (outcomes : Nat → AttemptOutcome α) :
    ∀ (k remaining attempt : Nat), attempt + remaining = maxRetries →
      k < remaining →
      (∀ j, j < k → outcomes (attempt + j) = .otherError) →
      outcomes (attempt + k) = .asyncioTimeout →
      generate_go maxRetries h outcomes remaining attempt =
        (.timeoutRaised, (List.range' attempt k).map (backoffDelay h)) := by
  intro k
  induction k with
  | zero =>
    intro remaining attempt hsum hk hfail htime
    match remaining, hk with
    | r + 1, _ =>
      rw [generate_go]
      simp only [Nat.add_zero] at htime
      rw [htime]
      rfl
  | succ k ih =>
    intro remaining attempt hsum hk hfail htime
    match remaining, hk with
    | r + 1, _ =>
      rw [generate_go]
      have h0 : outcomes attempt = .otherError := by
        simpa using hfail 0 (by omega)
      rw [h0]
      have hlt : attempt < maxRetries - 1 := by omega
      rw [if_pos hlt]
      have hrec := ih r (attempt + 1) (by omega) (by omega)
        (fun j hj => by
          have := hfail (j + 1) (by omega)
          simpa [Nat.add_assoc, Nat.add_comm 1 j] using this)
        (by
          have : attempt + 1 + k = attempt + (k + 1) := by omega
          rw [this]
          exact htime)
      rw [hrec]
      rw [List.range'_succ, List.map_cons]

theorem generate_go_success {α : Type} (maxRetries : Nat) (h : Int)
    (outcomes : Nat → AttemptOutcome α) :
    ∀ (k remaining attempt : Nat) (a : α), attempt + remaining = maxRetries →
      k < remaining →
      (∀ j, j < k → outcomes (attempt + j) = .otherError) →
      outcomes (attempt + k) = .success a →
      generate_go maxRetries h outcomes remaining attempt =
        (.ok a, (List.range' attempt k).map (backoffDelay h)) := by
  intro k
  induction k with
  | zero =>
    intro remaining attempt a hsum hk hfail hsucc
    match remaining, hk with
    | r + 1, _ =>
      rw [generate_go]
      simp only [Nat.add_zero] at hsucc
      rw [hsucc]
      rfl
  | succ k ih =>
    intro remaining attempt a hsum hk hfail hsucc
    match remaining, hk with
    | r + 1, _ =>
      rw [generate_go]
      have h0 : outcomes attempt = .otherError := by
        simpa using hfail 0 (by omega)
      rw [h0]
      have hlt : attempt < maxRetries - 1 := by omega
      rw [if_pos hlt]
      have hrec := ih r (attempt + 1) a (by omega) (by omega)
        (fun j hj => by
          have := hfail (j + 1) (by omega)
          simpa [Nat.add_assoc, Nat.add_comm 1 j] using this)
        (by
          have : attempt + 1 + k = attempt + (k + 1) := by omega
          rw [this]
          exact hsucc)
      rw [hrec]
      rw [List.range'_succ, List.map_cons]

theorem generate_go_exhausted {α : Type} (maxRetries : Nat) (h : Int)
    (outcomes : Nat → AttemptOutcome α) :
    ∀ (remaining attempt : Nat), attempt + remaining = maxRetries →
      1 ≤ remaining →
      (∀ j, attempt ≤ j → j < maxRetries → outcomes j = .otherError) →
      generate_go maxRetries h outcomes remaining attempt =
        (.errorRaised,
          (List.range' attempt (remaining - 1)).map (backoffDelay h)) := by
  intro remaining
  induction remaining with
  | zero => intro attempt _ h1; omega
  | succ r ih =>
    intro attempt hsum _ hfail
    rw [generate_go]
    have h0 : outcomes attempt = .otherError :=
      hfail attempt (le_refl _) (by omega)
    rw [h0]
    match r with
    | 0 =>
      have : ¬ attempt < maxRetries - 1 := by omega
      rw [if_neg this]
      simp
    | r' + 1 =>
      have hlt : attempt < maxRetries - 1 := by omega
      rw [if_pos hlt]
      have hrec := ih (attempt + 1) (by omega) (by omega)
        (fun j hj1 hj2 => hfail j (by omega) hj2)
      rw [hrec]
      have : r' + 1 + 1 - 1 = (r' + 1 - 1) + 1 := by omega
      rw [this, List.range'_succ, List.map_cons]

/-- **C9.** In `AsyncLLMClient.generate`: an `asyncio.TimeoutError` on any
attempt propagates immediately — no further attempts, no backoff sleep for
it; any other exception is retried, sleeping
`min(30, 2^attempt + (hash(chunk_id) % 10)/10)` — exponential backoff
capped at 30 s plus a per-chunk jitter in `[0, 1)` derived from the chunk
id's hash — for up to `max_retries` total attempts; after the last attempt
the error is re-raised. -/
theorem async_llm_generate_retry_policy {α : Type} (maxRetries : Nat)
    (h : Int) (outcomes : Nat → AttemptOutcome α) :
    (0 ≤ ((h % 10 : Int) : Rat) / 10 ∧ ((h % 10 : Int) : Rat) / 10 < 1) ∧
    (∀ k, k < maxRetries →
      (∀ j, j < k → outcomes j = .otherError) →
      outcomes k = .asyncioTimeout →
      generate maxRetries h outcomes =
        (.timeoutRaised, (List.range k).map (backoffDelay h))) ∧
    (∀ k a, k < maxRetries →
      (∀ j, j < k → outcomes j = .otherError) →
      outcomes k = .success a →
      generate maxRetries h outcomes =
        (.ok a, (List.range k).map (backoffDelay h))) ∧
    (1 ≤ maxRetries →
      (∀ j, j < maxRetries → outcomes j = .otherError) →
      generate maxRetries h outcomes =
        (.errorRaised,
          (List.range (maxRetries - 1)).map (backoffDelay h))) := by
  have hj0 : (0 : Int) ≤ h % 10 := Int.emod_nonneg h (by norm_num)
  have hj10 : h % 10 < 10 := Int.emod_lt_of_pos h (by norm_num)
  refine ⟨⟨?_, ?_⟩, ?_, ?_, ?_⟩
  · apply div_nonneg _ (by norm_num)
    exact_mod_cast hj0
  · rw [div_lt_one (by norm_num)]
    exact_mod_cast hj10
  · intro k hk hfail htime
    rw [generate, List.range_eq_range']
    exact generate_go_timeout maxRetries h outcomes k maxRetries 0
      (by omega) hk (fun j hj => by simpa using hfail j hj)
      (by simpa using htime)
  · intro k a hk hfail hsucc
    rw [generate, List.range_eq_range']
    exact generate_go_success maxRetries h outcomes k maxRetries 0 a
      (by omega) hk (fun j hj => by simpa using hfail j hj)
      (by simpa using hsucc)
  · intro hmr hfail
    rw [generate, List.range_eq_range']
    exact generate_go_exhausted maxRetries h outcomes maxRetries 0
      (by omega) hmr (fun j _ hj2 => hfail j hj2)

/-- Concrete check of C9: with `max_retries = 3`, `hash(chunk_id) = 7`,
one generic failure then a timeout on attempt 1: the timeout propagates
after exactly one backoff sleep of `min(30, 2^0 + 0.7) = 1.7` seconds. -/
theorem async_llm_generate_retry_policy_witness :
    generate 3 7 (fun n => if n = 1 then AttemptOutcome.asyncioTimeout
      else (AttemptOutcome.otherError : AttemptOutcome Unit)) =
    (GenOutcome.timeoutRaised, [17/10]) := by
  have hc := (async_llm_generate_retry_policy 3 7
    (fun n => if n = 1 then AttemptOutcome.asyncioTimeout
      else (AttemptOutcome.otherError : AttemptOutcome Unit))).2.1 1 (by omega)
    (fun j hj => by
      have hj0 : j = 0 := by omega
      subst hj0
      rfl) rfl
  rw [hc]
  rw [show List.range 1 = [0] from rfl, List.map_cons, List.map_nil]
  norm_num [backoffDelay, min_def]

/-! ## Timeline merger (`subtitle_generator/merger.py`) -/

/-- A word dict in a processed timeline. -/
structure WordDict where
  id : Str
  word : Str
  start : Rat
  «end» : Rat
deriving DecidableEq, Repr

/-- A line dict in a processed timeline. -/
structure LineDict where
  id : Str
  text : Str
  font_type : Str
  start : Rat
  «end» : Rat
  words : List WordDict
deriving DecidableEq, Repr

/-- A group dict in a processed timeline. -/
structure GroupDict where
  id : Str
  group_text : Str
  start : Rat
  «end» : Rat
  lines : List LineDict
deriving DecidableEq, Repr

/-- `f"group-{g}"`. -/
def groupIdStr (g : Nat) : Str := strL "group-" ++ natStr g

/-- `f"group-{g}-line-{l}"`. -/
def lineIdStr (g l : Nat) : Str :=
  groupIdStr g ++ strL "-line-" ++ natStr l

/-- `f"group-{g}-line-{l}-word-{w}"`. -/
def wordIdStr (g l w : Nat) : Str :=
  lineIdStr g l ++ strL "-word-" ++ natStr w

namespace TimelineMerger

/-- `TimelineMerger.merge`: concatenate the per-chunk group lists in
order and reassign hierarchical ids by final position. -/
def merge (processed_chunks : List (List GroupDict)) : List GroupDict :=
  (processed_chunks.flatten).enum.map fun p =>
    { p.2 with
      id := groupIdStr p.1
      lines := p.2.lines.enum.map fun q =>
        { q.2 with
          id := lineIdStr p.1 q.1
          words := q.2.words.enum.map fun r =>
            { r.2 with id := wordIdStr p.1 q.1 r.1 } } }

end TimelineMerger

theorem getD_enumFrom_map {α β : Type} (d' : β) (d : α) (f : Nat × α → β) :
    ∀ (l : List α) (s i : Nat), i < l.length →
      ((l.enumFrom s).map f).getD i d' = f (s + i, l.getD i d) := by
  intro l
  induction l with
  | nil => intro s i hi; simp at hi
  | cons a as ih =>
    intro s i hi
    cases i with
    | zero => simp [List.enumFrom]
    | succ i =>
      simp only [List.enumFrom, List.map_cons, List.getD_cons_succ]
      rw [ih (s + 1) i (by simpa using hi)]
      have : s + 1 + i = s + (i + 1) := by omega
      rw [this]

theorem getD_enum_map {α β : Type} (d' : β) (d : α) (f : Nat × α → β)
    (l : List α) (i : Nat) (hi : i < l.length) :
    (l.enum.map f).getD i d' = f (i, l.getD i d) := by
  have := getD_enumFrom_map d' d f l 0 i hi
  simpa [List.enum] using this

/-- **C10.** `TimelineMerger.merge` returns exactly the concatenation of
the per-chunk group lists in input order, and for the group at final
position `g` it changes only the id fields: the group id becomes
`group-{g}`, each line id `group-{g}-line-{l}`, each word id
`group-{g}-line-{l}-word-{w}` (0-based), while every other field of every
group, line, and word is unchanged — the structure updates below touch
only `id`. -/
theorem merger_merge_ids_and_frame (chunks : List (List GroupDict)) :
    (TimelineMerger.merge chunks).length = chunks.flatten.length ∧
    (∀ gIdx, gIdx < chunks.flatten.length →
      (TimelineMerger.merge chunks).getD gIdx ⟨[], [], 0, 0, []⟩ =
        { chunks.flatten.getD gIdx ⟨[], [], 0, 0, []⟩ with
          id := groupIdStr gIdx
          lines := (chunks.flatten.getD gIdx
              ⟨[], [], 0, 0, []⟩).lines.enum.map fun q : Nat × LineDict =>
            { q.2 with
              id := lineIdStr gIdx q.1
              words := q.2.words.enum.map fun r : Nat × WordDict =>
                { r.2 with id := wordIdStr gIdx q.1 r.1 } } }) ∧
    (∀ (g : GroupDict) (gIdx l : Nat), l < g.lines.length →
      ((g.lines.enum.map fun q : Nat × LineDict =>
        { q.2 with
          id := lineIdStr gIdx q.1
          words := q.2.words.enum.map fun r : Nat × WordDict =>
            { r.2 with id := wordIdStr gIdx q.1 r.1 } }).getD l
              ⟨[], [], [], 0, 0, []⟩) =
        { g.lines.getD l ⟨[], [], [], 0, 0, []⟩ with
          id := lineIdStr gIdx l
          words := (g.lines.getD l
              ⟨[], [], [], 0, 0, []⟩).words.enum.map fun r : Nat × WordDict =>
            { r.2 with id := wordIdStr gIdx l r.1 } }) ∧
    (∀ (ln : LineDict) (gIdx l w : Nat), w < ln.words.length →
      ((ln.words.enum.map fun r : Nat × WordDict =>
        { r.2 with id := wordIdStr gIdx l r.1 }).getD w ⟨[], [], 0, 0⟩) =
        { ln.words.getD w ⟨[], [], 0, 0⟩ with id := wordIdStr gIdx l w }) := by
  refine ⟨?_, ?_, ?_, ?_⟩
  · simp [TimelineMerger.merge]
  · intro gIdx h
    exact getD_enum_map ⟨[], [], 0, 0, []⟩ ⟨[], [], 0, 0, []⟩
      (fun p : Nat × GroupDict =>
        { p.2 with
          id := groupIdStr p.1
          lines := p.2.lines.enum.map fun q : Nat × LineDict =>
            { q.2 with
              id := lineIdStr p.1 q.1
              words := q.2.words.enum.map fun r : Nat × WordDict =>
                { r.2 with id := wordIdStr p.1 q.1 r.1 } } })
      chunks.flatten gIdx h
  · intro g gIdx l hl
    exact getD_enum_map ⟨[], [], [], 0, 0, []⟩ ⟨[], [], [], 0, 0, []⟩
      (fun q : Nat × LineDict =>
        { q.2 with
          id := lineIdStr gIdx q.1
          words := q.2.words.enum.map fun r : Nat × WordDict =>
            { r.2 with id := wordIdStr gIdx q.1 r.1 } })
      g.lines l hl
  · intro ln gIdx l w hw
    exact getD_enum_map ⟨[], [], 0, 0⟩ ⟨[], [], 0, 0⟩
      (fun r : Nat × WordDict => { r.2 with id := wordIdStr gIdx l r.1 })
      ln.words w hw

/-- Concrete check of C10: merging two one-group chunks, the group at
final position 1 gets id "group-1" and keeps every other field. -/
theorem merger_merge_ids_and_frame_witness :
    (TimelineMerger.merge
      [[⟨strL "old", strL "hi there", 1, 2,
          [⟨strL "oldL", strL "hi there", strL "normal", 1, 2,
            [⟨strL "oldW", strL "hi", 1, 2⟩]⟩]⟩],
        [⟨strL "old2", strL "yo", 3, 4, []⟩]]).getD 1 ⟨[], [], 0, 0, []⟩ =
      ⟨strL "group-1", strL "yo", 3, 4, []⟩ := by
  have h := (merger_merge_ids_and_frame
    [[⟨strL "old", strL "hi there", 1, 2,
        [⟨strL "oldL", strL "hi there", strL "normal", 1, 2,
          [⟨strL "oldW", strL "hi", 1, 2⟩]⟩]⟩],
      [⟨strL "old2", strL "yo", 3, 4, []⟩]]).2.1 1 (by decide)
  rw [h]
  decide
